import Mathlib

/-!
# FID: a 64-bit, time-ordered identifier

A shallow embedding of the Go package `fid` (files `fid.go`, `encode.go`,
`errors.go`, `nodeid.go`) together with the parts of the Go standard library it
calls (`strings.ToUpper`, `strings.TrimSpace`, `strings.IndexRune`,
`strconv.Atoi`, UTF-8 coding).

Conventions of the embedding:

* a Go `string` is the list of its bytes (`GoString`), a `rune` is a natural
  number (its code point), `uint64` values are naturals reduced `% 2 ^ 64`
  wherever the Go arithmetic could wrap;
* a run-time panic (index out of range) is an explicit outcome;
* the Unicode upper-case table (`unicode.CaseRanges`, used by
  `unicode.ToUpper` for runes above U+007F) is data of the standard library;
  it is a parameter `tbl : Nat → Nat` of every definition that depends on it,
  so every theorem holds for whatever that table contains;
* what `deriveNodeID` reads from the machine (machine id, host name, process
  ids) is a parameter of `InitNodeID`;
* concurrent callers of `New` are an interleaving of their atomic actions on the
  shared state word.
-/

namespace Fid

/-! ## Go strings and UTF-8 -/

/-- Go strings are immutable byte sequences; a byte is a natural below 256. -/
abbrev GoString := List Nat

/-- Bytes of a string literal (all literals used here are ASCII). -/
def lit (s : String) : GoString := s.toList.map Char.toNat

/-- The constant `utf8.RuneError`, U+FFFD. -/
def RuneError : Nat := 0xFFFD

/-- The constant `utf8.RuneSelf`: bytes below it are single-byte runes. -/
def RuneSelf : Nat := 0x80

/-- The constant `utf8.UTFMax`. -/
def UTFMax : Nat := 4

/-- Continuation byte test, `0x80 ≤ b ≤ 0xBF`. -/
def isCont (b : Nat) : Bool := decide (0x80 ≤ b ∧ b ≤ 0xBF)

/-- Decoder `utf8.DecodeRuneInString`: the first rune of `s` and its width in bytes.
An empty string gives `(RuneError, 0)` and an invalid or truncated encoding
gives `(RuneError, 1)`; the accepted second-byte ranges are those of the
`acceptRanges` table of package `utf8`. -/
def DecodeRune : GoString → Nat × Nat
  | [] => (RuneError, 0)
  | b0 :: rest =>
    if b0 < RuneSelf then (b0, 1)
    else if 0xC2 ≤ b0 ∧ b0 ≤ 0xDF then
      match rest with
      | b1 :: _ =>
        if isCont b1 then (((b0 &&& 0x1F) <<< 6) ||| (b1 &&& 0x3F), 2) else (RuneError, 1)
      | _ => (RuneError, 1)
    else if 0xE0 ≤ b0 ∧ b0 ≤ 0xEF then
      match rest with
      | b1 :: b2 :: _ =>
        if (if b0 = 0xE0 then 0xA0 else 0x80) ≤ b1 ∧ b1 ≤ (if b0 = 0xED then 0x9F else 0xBF)
            ∧ isCont b2 = true then
          (((b0 &&& 0x0F) <<< 12) ||| ((b1 &&& 0x3F) <<< 6) ||| (b2 &&& 0x3F), 3)
        else (RuneError, 1)
      | _ => (RuneError, 1)
    else if 0xF0 ≤ b0 ∧ b0 ≤ 0xF4 then
      match rest with
      | b1 :: b2 :: b3 :: _ =>
        if (if b0 = 0xF0 then 0x90 else 0x80) ≤ b1 ∧ b1 ≤ (if b0 = 0xF4 then 0x8F else 0xBF)
            ∧ isCont b2 = true ∧ isCont b3 = true then
          (((b0 &&& 0x07) <<< 18) ||| ((b1 &&& 0x3F) <<< 12) ||| ((b2 &&& 0x3F) <<< 6)
            ||| (b3 &&& 0x3F), 4)
        else (RuneError, 1)
      | _ => (RuneError, 1)
    else (RuneError, 1)

/-- The runes visited by `for _, r := range s`, where the first argument counts
the bytes of the current rune that are still to be skipped. -/
def runesFrom : Nat → GoString → List Nat
  | _, [] => []
  | 0, b :: rest =>
    (DecodeRune (b :: rest)).1 :: runesFrom ((DecodeRune (b :: rest)).2 - 1) rest
  | k + 1, _ :: rest => runesFrom k rest

/-- The runes visited by `for _, r := range s`. -/
def runes (s : GoString) : List Nat := runesFrom 0 s

/-- Encoder `utf8.AppendRune` (used by `strings.Builder.WriteRune`): the UTF-8
bytes of a rune; surrogates and values above U+10FFFF are written as U+FFFD. -/
def EncodeRune (r : Nat) : GoString :=
  if r ≤ 0x7F then [r]
  else if r ≤ 0x7FF then [0xC0 ||| (r >>> 6), 0x80 ||| (r &&& 0x3F)]
  else if r > 0x10FFFF ∨ (0xD800 ≤ r ∧ r ≤ 0xDFFF) then [0xEF, 0xBF, 0xBD]
  else if r ≤ 0xFFFF then
    [0xE0 ||| (r >>> 12), 0x80 ||| ((r >>> 6) &&& 0x3F), 0x80 ||| (r &&& 0x3F)]
  else
    [0xF0 ||| (r >>> 18), 0x80 ||| ((r >>> 12) &&& 0x3F), 0x80 ||| ((r >>> 6) &&& 0x3F),
      0x80 ||| (r &&& 0x3F)]

/-! ## `unicode.ToUpper`, `strings.ToUpper`, `strings.TrimSpace`, `strings.IndexRune` -/

/-- Function `unicode.ToUpper`: ASCII letters are handled inline, every other rune is
looked up in the case table `tbl`. -/
def unicodeToUpper (tbl : Nat → Nat) (r : Nat) : Nat :=
  if r ≤ 0x7F then
    if 'a'.toNat ≤ r ∧ r ≤ 'z'.toNat then r - ('a'.toNat - 'A'.toNat) else r
  else tbl r

/-- Function `strings.Map` for a mapping that never returns a negative rune: every
rune of `s` (an invalid byte counting as U+FFFD) is replaced by the encoding of
its image. -/
def Map (mapping : Nat → Nat) (s : GoString) : GoString :=
  (runes s).flatMap (fun c => EncodeRune (mapping c))

/-- The byte rewrite of the ASCII fast path of `strings.ToUpper`. -/
def upperByte (c : Nat) : Nat :=
  if 'a'.toNat ≤ c ∧ c ≤ 'z'.toNat then c - ('a'.toNat - 'A'.toNat) else c

/-- Function `strings.ToUpper`: a byte-wise fast path for ASCII-only strings, otherwise
`Map(unicode.ToUpper, s)`. -/
def ToUpper (tbl : Nat → Nat) (s : GoString) : GoString :=
  if s.all (fun c => decide (c < RuneSelf)) then s.map upperByte
  else Map (unicodeToUpper tbl) s

/-- The table `asciiSpace` of package `strings`: tab, LF, VT, FF, CR, space. -/
def asciiSpace (c : Nat) : Bool :=
  decide (c = 0x09 ∨ c = 0x0A ∨ c = 0x0B ∨ c = 0x0C ∨ c = 0x0D ∨ c = 0x20)

/-- Function `unicode.IsSpace`: the Latin-1 white space and the `White_Space` property. -/
def IsSpace (r : Nat) : Bool :=
  if r ≤ 0xFF then
    decide (r = 0x09 ∨ r = 0x0A ∨ r = 0x0B ∨ r = 0x0C ∨ r = 0x0D ∨ r = 0x20 ∨ r = 0x85
      ∨ r = 0xA0)
  else
    decide (r = 0x1680 ∨ (0x2000 ≤ r ∧ r ≤ 0x200A) ∨ r = 0x2028 ∨ r = 0x2029 ∨ r = 0x202F
      ∨ r = 0x205F ∨ r = 0x3000)

/-- Function `strings.TrimLeftFunc(s, unicode.IsSpace)`: drop the leading white-space
runes (the first argument counts bytes of the current rune still to drop). -/
def trimLeftSpace : Nat → GoString → GoString
  | _, [] => []
  | 0, b :: rest =>
    if IsSpace (DecodeRune (b :: rest)).1 then
      trimLeftSpace ((DecodeRune (b :: rest)).2 - 1) rest
    else b :: rest
  | k + 1, _ :: rest => trimLeftSpace k rest

/-- The backward scan of `utf8.DecodeLastRuneInString`: from `start` down to `lim`,
stop at the first byte that begins a rune (`utf8.RuneStart`). -/
def scanRuneStart (s : GoString) (lim : Int) : Nat → Int → Int
  | 0, start => start
  | fuel + 1, start =>
    if start < lim then start
    else if (s.getD start.toNat 0) &&& 0xC0 ≠ 0x80 then start
    else scanRuneStart s lim fuel (start - 1)

/-- Decoder `utf8.DecodeLastRuneInString`: the last rune of `s` and its width. -/
def DecodeLastRune (s : GoString) : Nat × Nat :=
  if s.length = 0 then (RuneError, 0)
  else if s.getD (s.length - 1) 0 < RuneSelf then (s.getD (s.length - 1) 0, 1)
  else
    let lim : Int := max ((s.length : Int) - UTFMax) 0
    let start := max (scanRuneStart s lim UTFMax ((s.length : Int) - 2)) 0
    let d := DecodeRune (s.drop start.toNat)
    if start.toNat + d.2 ≠ s.length then (RuneError, 1) else d

/-- Function `strings.TrimRightFunc(s, unicode.IsSpace)`: drop the trailing white-space
runes; the first argument bounds the number of runes looked at. -/
def trimRightSpace : Nat → GoString → GoString
  | 0, _ => []
  | fuel + 1, s =>
    if s.length = 0 then []
    else if IsSpace (DecodeLastRune s).1 then
      trimRightSpace fuel (s.take (s.length - (DecodeLastRune s).2))
    else s

/-- The second loop of `strings.TrimSpace`, run on the reversed string: drop
trailing ASCII white space, handing over to the Unicode-aware trimming at the
first non-ASCII byte. -/
def trimSpaceEnd : GoString → GoString
  | [] => []
  | c :: rev =>
    if c ≥ RuneSelf then trimRightSpace (rev.length + 1) (c :: rev).reverse
    else if asciiSpace c then trimSpaceEnd rev
    else (c :: rev).reverse

/-- Function `strings.TrimSpace`: drop leading and trailing white space. -/
def TrimSpace : GoString → GoString
  | [] => []
  | c :: rest =>
    if c ≥ RuneSelf then
      trimRightSpace (rest.length + 1) (trimLeftSpace 0 (c :: rest))
    else if asciiSpace c then TrimSpace rest
    else trimSpaceEnd (c :: rest).reverse

/-- Function `strings.IndexByte`: position of the first occurrence of `c`, or `-1`. -/
def IndexByte : GoString → Nat → Int
  | [], _ => -1
  | b :: rest, c => if b = c then 0 else
    if IndexByte rest c < 0 then -1 else IndexByte rest c + 1

/-- Function `strings.IndexRune` for an ASCII-only haystack (both alphabets are): an
ASCII rune is searched as a byte, any other rune does not occur. -/
def IndexRune (s : GoString) (r : Nat) : Int :=
  if r < RuneSelf then IndexByte s r else -1

/-! ## `errors.go` -/

/-- The four sentinel errors of the package. -/
inductive Err
  | ErrorBadCheckDigit
  | ErrorInvalidID
  | ErrorIdBadLength
  | ErrorIdOverflow
  deriving DecidableEq, Repr

/-- Result of a call that may also end in a run-time panic. -/
inductive Outcome (α : Type)
  | ok (v : α)
  | err (e : Err)
  | panic
  deriving DecidableEq, Repr

/-! ## `encode.go` -/

/-- The 32 data symbols. -/
def alphabet : GoString := lit "0123456789ABCDEFGHJKMNPQRSTVWXYZ"

/-- The 37 check symbols. -/
def checkAlphabet : GoString := lit "0123456789ABCDEFGHJKMNPQRSTVWXYZ*~$=U"

/-- The loop of `encode`: `i` is the index into the 13-byte buffer, `buf` the part
`buf[i:]` already written. Decrementing `i` below zero is an index panic
(`none`). -/
def encodeLoop : Nat → Nat → GoString → Option GoString
  | i, n, buf =>
    if n = 0 then some buf
    else match i with
      | 0 => none
      | i + 1 => encodeLoop i (n / 32) (alphabet.getD (n % 32) 0 :: buf)

/-- Function `encode`: the base-32 numeral of `n`, without leading zeros. -/
def encode (n : Nat) : Option GoString :=
  if n = 0 then some (lit "0") else encodeLoop 13 n []

/-- The switch of `normalize`: separators are skipped (`none`), look-alikes are
replaced. -/
def normalizeRune (r : Nat) : Option Nat :=
  if r = '-'.toNat ∨ r = '_'.toNat ∨ r = ' '.toNat ∨ r = '.'.toNat then none
  else if r = 'O'.toNat then some '0'.toNat
  else if r = 'I'.toNat ∨ r = 'L'.toNat then some '1'.toNat
  else some r

/-- Function `normalize`: upper-case, then rewrite rune by rune. -/
def normalize (tbl : Nat → Nat) (s : GoString) : GoString :=
  ((runes (ToUpper tbl s)).filterMap normalizeRune).flatMap EncodeRune

/-- Function `indexId`: position of a rune in `alphabet` after look-alike replacement,
`-1` when it is no data symbol. -/
def indexId (r : Nat) : Int :=
  IndexRune alphabet
    (if r = 'O'.toNat then '0'.toNat else if r = 'I'.toNat ∨ r = 'L'.toNat then '1'.toNat else r)

/-- The constant `max = ^uint64(0)` of `decode`. -/
def maxUint64 : Nat := 2 ^ 64 - 1

/-- The loop of `decode` over the runes of the normalized string. -/
def decodeLoop : Nat → List Nat → Except Err Nat
  | n, [] => .ok n
  | n, r :: rs =>
    if indexId r < 0 then .error .ErrorInvalidID
    else if n > (maxUint64 - (indexId r).toNat) / 32 then .error .ErrorIdOverflow
    else decodeLoop ((n * 32 + (indexId r).toNat) % 2 ^ 64) rs

/-- Function `decode`: the value of a base-32 numeral. -/
def decode (tbl : Nat → Nat) (s : GoString) : Except Err Nat :=
  decodeLoop 0 (runes (normalize tbl s))

/-- Function `computeCheckUint64`: the check symbol of a value (the index is below 37,
the length of `checkAlphabet`). -/
def computeCheckUint64 (v : Nat) : Nat := checkAlphabet.getD (v % 37) 0

/-! ## `fid.go`: text form -/

/-- Function `Parse`. The index expression `strings.ToUpper(s)[len(s)-1]` panics when
it is out of range. -/
def Parse (tbl : Nat → Nat) (s0 : GoString) : Outcome Nat :=
  let s := TrimSpace s0
  if s.length < 14 then .err .ErrorIdBadLength
  else
    let body := normalize tbl (s.take (s.length - 1))
    if body.length ≠ 13 then .err .ErrorIdBadLength
    else
      match (ToUpper tbl s).get? (s.length - 1) with
      | none => .panic
      | some suppliedCheck =>
        match decode tbl body with
        | .error e => .err e
        | .ok value =>
          if suppliedCheck ≠ computeCheckUint64 value then .err .ErrorBadCheckDigit
          else .ok value

/-- Method `ID.String`: the body padded to 13 symbols, then the check symbol (`none`
only if `encode` panics). -/
def ID.String (id : Nat) : Option GoString :=
  match encode id with
  | none => none
  | some body =>
    some ((if body.length < 13 then List.replicate (13 - body.length) '0'.toNat ++ body
      else body) ++ [computeCheckUint64 id])

/-! ## `fid.go`: bit layout and field accessors -/

/-- The constant `epochMS`: 2025-05-15T00:00:00Z in Unix milliseconds. -/
def epochMS : Nat := 1747267200000

/-- Width of the kind field. -/
def kindBits : Nat := 8

/-- Width of the time field. -/
def timeBits : Nat := 43

/-- Width of the node field. -/
def nodeBits : Nat := 8

/-- Width of the counter field. -/
def countBits : Nat := 5

/-- The constant `countMax = 1 << countBits`. -/
def countMax : Nat := 1 <<< countBits

/-- The constant `timeMax = 1 << timeBits`. -/
def timeMax : Nat := 1 <<< timeBits

/-- Method `ID.Kind`, with the final conversion to `uint8`. -/
def ID.Kind (id : Nat) : Nat :=
  ((id >>> (timeBits + nodeBits + countBits)) &&& ((1 <<< kindBits) - 1)) % 2 ^ 8

/-- Method `ID.Node`, with the final conversion to `uint8`. -/
def ID.Node (id : Nat) : Nat :=
  ((id >>> countBits) &&& ((1 <<< nodeBits) - 1)) % 2 ^ 8

/-- Method `ID.TimestampMS`, the addition being that of `uint64`. -/
def ID.TimestampMS (id : Nat) : Nat :=
  (((id >>> (nodeBits + countBits)) &&& ((1 <<< timeBits) - 1)) + epochMS) % 2 ^ 64

/-! ## `fid.go`: the generator -/

/-- The two errors `New` builds with `fmt.Errorf`. -/
inductive NewErr
  | timeBeforeEpoch
  | timestampOverflow
  deriving DecidableEq, Repr

/-- What one pass through the body of the `for` loop of `New` does, up to the
compare-and-swap: fail, go round again after sleeping, or propose the state
word `next` together with the identifier `id` returned if the swap succeeds. -/
inductive Attempt
  | failed (e : NewErr)
  | retry
  | propose (id next : Nat)
  deriving DecidableEq, Repr

/-- The identifier assembled from `kindCode`, `nextMs`, `nodeId` and `nextCount`, and
the packed state word, every shift being that of `uint64`. -/
def assemble (kindCode nodeId nextMs nextCount : Nat) : Attempt :=
  .propose
    (((kindCode <<< (timeBits + nodeBits + countBits)) % 2 ^ 64)
      ||| ((nextMs <<< (nodeBits + countBits)) % 2 ^ 64)
      ||| ((nodeId <<< countBits) % 2 ^ 64)
      ||| nextCount)
    (((nextMs <<< countBits) % 2 ^ 64) ||| nextCount)

/-- One pass through the loop body of `New`: `now` is the value of
`time.Now().UnixMilli()` (an `int64`), `cur` the state word read by `state.Load()`. -/
def attempt (kindCode nodeId : Nat) (now : Int) (cur : Nat) : Attempt :=
  let nowMs := (now % 2 ^ 64).toNat
  if nowMs < epochMS then .failed .timeBeforeEpoch
  else
    let ms := nowMs - epochMS
    if ms ≥ timeMax then .failed .timestampOverflow
    else
      let lastMs := cur >>> countBits
      let lastCount := cur &&& (countMax - 1)
      let ms := if ms < lastMs then lastMs else ms
      if ms = lastMs then
        if lastCount + 1 ≥ countMax then .retry
        else assemble kindCode nodeId lastMs (lastCount + 1)
      else assemble kindCode nodeId ms 0

/-- How a call of `New` ends: with an identifier, with an error, or still waiting
when the supplied clock readings are used up. -/
inductive NewResult
  | returned (id : Nat)
  | failed (e : NewErr)
  | waiting
  deriving DecidableEq, Repr

/-- Function `New` run alone on the generator state: the list holds the successive clock
readings, one per pass through the loop, and the result comes with the state
word left behind. With no concurrent caller the compare-and-swap succeeds. -/
def New (kindCode nodeId : Nat) : List Int → Nat → NewResult × Nat
  | [], st => (.waiting, st)
  | now :: clock, st =>
    match attempt kindCode nodeId now st with
    | .failed e => (.failed e, st)
    | .retry => New kindCode nodeId clock st
    | .propose id next => (.returned id, next)

/-- A sequence of calls of `New`, each with its own clock readings: the identifiers
returned, in the order of the calls. -/
def issued (kindCode nodeId : Nat) : List (List Int) → Nat → List Nat
  | [], _ => []
  | clock :: calls, st =>
    match New kindCode nodeId clock st with
    | (.returned id, st') => id :: issued kindCode nodeId calls st'
    | (_, st') => issued kindCode nodeId calls st'

/-! ## Auxiliary notions used in the statements -/

/-- Every byte is below `utf8.RuneSelf`. -/
def IsAscii (s : GoString) : Prop := ∀ b ∈ s, b < RuneSelf

/-- The effect of `normalize` on one ASCII byte: upper-case it, then apply the switch. -/
def normByte (c : Nat) : Option Nat := normalizeRune (upperByte c)

/-- The `k` least significant base-32 digits of `n`, most significant first, written
with `alphabet`. -/
def digits : Nat → Nat → GoString
  | 0, _ => []
  | k + 1, n => digits k (n / 32) ++ [alphabet.getD (n % 32) 0]

/-- Value of a data symbol: its position in the 32-symbol alphabet. -/
def symbolValue (c : Nat) : Nat := alphabet.indexOf c

/-- The base-32 numeric value of a string of data symbols, most significant first. -/
def base32Value (s : GoString) : Nat := s.foldl (fun acc c => acc * 32 + symbolValue c) 0

/-- Lower-case form of an ASCII capital letter; every other byte is unchanged. -/
def lowerByte (c : Nat) : Nat :=
  if 'A'.toNat ≤ c ∧ c ≤ 'Z'.toNat then c + ('a'.toNat - 'A'.toNat) else c

/-- The four formatting separators: hyphen, underscore, space and period. -/
def IsSeparator (c : Nat) : Prop :=
  c = '-'.toNat ∨ c = '_'.toNat ∨ c = ' '.toNat ∨ c = '.'.toNat

/-- The relation `Respelled t s`: the string `s` is `t` with any of its letters
lower-cased and any number of separators inserted anywhere. -/
inductive Respelled : GoString → GoString → Prop
  | nil : Respelled [] []
  | keep (c : Nat) {t s : GoString} : Respelled t s → Respelled (c :: t) (c :: s)
  | lower (c : Nat) {t s : GoString} : Respelled t s → Respelled (c :: t) (lowerByte c :: s)
  | sep (x : Nat) {t s : GoString} : IsSeparator x → Respelled t s → Respelled t (x :: s)

/-- The relation `LookAlike c d`: the character `d` is `c` itself, or the letter `O`
standing for the digit zero, or one of the letters `I`, `L` standing for the
digit one. -/
def LookAlike (c d : Nat) : Prop :=
  d = c ∨ (c = '0'.toNat ∧ d = 'O'.toNat)
    ∨ (c = '1'.toNat ∧ (d = 'I'.toNat ∨ d = 'L'.toNat))

/-! ## `nodeid.go` -/

/-- Function `fnv1a8`: the 32-bit FNV-1a hash of the bytes, converted to `uint8`. -/
def fnv1a8 (data : GoString) : Nat :=
  (data.foldl (fun hash b => ((hash ^^^ b) * 16777619) % 2 ^ 32) 2166136261) % 2 ^ 8

/-- Function `strconv.Atoi` on a 64-bit platform: an optional sign followed by one or more
decimal digits, whose value fits `int`; `none` stands for a returned error
(syntax or range). -/
def Atoi (s : GoString) : Option Int :=
  let neg := decide (s.head? = some '-'.toNat)
  let body := if s.head? = some '-'.toNat ∨ s.head? = some '+'.toNat then s.tail else s
  if body = [] then none
  else if body.all (fun ch => decide ('0'.toNat ≤ ch ∧ ch ≤ '9'.toNat)) then
    let un := body.foldl (fun n ch => n * 10 + (ch - '0'.toNat)) 0
    if neg = false ∧ un ≥ 2 ^ 63 then none
    else if neg = true ∧ un > 2 ^ 63 then none
    else some (if neg then -(un : Int) else (un : Int))
  else none

/-- Function `isNumeric`: `strconv.Atoi` returns no error. -/
def isNumeric (s : GoString) : Bool := (Atoi s).isSome

/-- Function `InitNodeID`: the new value of the package variable `nodeId`, given the value
`env` of `FID_NODE_ID` and the byte `derived` that `deriveNodeID()` would
return on this machine. -/
def InitNodeID (env : GoString) (derived : Nat) : Nat :=
  if env = [] then derived
  else if isNumeric env then
    match Atoi env with
    | some v => if v ≥ 0 ∧ v ≤ 255 then (v % 2 ^ 8).toNat else fnv1a8 env
    | none => fnv1a8 env
  else fnv1a8 env

/-! ## Fields of the layout, reachable states, concurrent callers -/

/-- The time field of an identifier: bits 13..55, what `TimestampMS` reads before
adding the epoch. -/
def ID.time (id : Nat) : Nat := (id >>> (nodeBits + countBits)) &&& ((1 <<< timeBits) - 1)

/-- The counter field of an identifier: its low 5 bits. -/
def ID.counter (id : Nat) : Nat := id &&& (countMax - 1)

/-- Generator states reachable from the initial state 0 by calls of `New` (with any
kind, any node byte and any clock readings). -/
inductive Reachable : Nat → Prop
  | init : Reachable 0
  | call (k n : Nat) (clock : List Int) (st : Nat) :
      k < 256 → n < 256 → Reachable st → Reachable (New k n clock st).2

/-- A sequence of calls of `New` on one generator state, each with its own kind and
clock readings: the identifiers returned, in the order of the calls. -/
def issuedBy (nodeId : Nat) : List (Nat × List Int) → Nat → List Nat
  | [], _ => []
  | (kindCode, clock) :: calls, st =>
    match New kindCode nodeId clock st with
    | (.returned id, st') => id :: issuedBy nodeId calls st'
    | (_, st') => issuedBy nodeId calls st'

/-- What a caller of `New` holds between `state.Load()` and `state.CompareAndSwap`:
the word it read and the word and identifier it computed from it. -/
structure Pending where
  cur : Nat
  id : Nat
  next : Nat
  deriving DecidableEq, Repr

/-- The atomic word `state`, the callers that are between their load and their
compare-and-swap (by caller number), and the identifiers returned so far, the
most recent first. -/
structure Shared where
  state : Nat
  pending : List (Nat × Pending)
  returned : List Nat
  deriving DecidableEq, Repr

/-- The atomic actions of concurrent callers of `New`. The operations of
`sync/atomic` are sequentially consistent, so an execution is an interleaving
of these actions. -/
inductive Event
  | load (caller : Nat) (now : Int)
  | cas (caller : Nat)
  deriving DecidableEq, Repr

/-- One atomic action. `load c now`: caller `c` has read the clock, executes
`state.Load()` and computes `next` (on an error or an exhausted counter it holds
nothing and will return or go round again). `cas c`: caller `c` executes
`state.CompareAndSwap(cur, next)`; on success the word is replaced and the
identifier returned, on failure the caller goes round again. -/
def stepShared (kindCode nodeId : Nat) (s : Shared) : Event → Shared
  | .load c now =>
    match attempt kindCode nodeId now s.state with
    | .propose id next =>
      { s with pending := (c, ⟨s.state, id, next⟩) :: s.pending.filter (fun e => e.1 ≠ c) }
    | _ => { s with pending := s.pending.filter (fun e => e.1 ≠ c) }
  | .cas c =>
    match s.pending.find? (fun e => e.1 = c) with
    | none => s
    | some (_, p) =>
      if s.state = p.cur then
        { state := p.next, pending := s.pending.filter (fun e => e.1 ≠ c),
          returned := p.id :: s.returned }
      else { s with pending := s.pending.filter (fun e => e.1 ≠ c) }

/-- An interleaved execution from the initial word 0. -/
def runShared (kindCode nodeId : Nat) (events : List Event) : Shared :=
  events.foldl (stepShared kindCode nodeId) ⟨0, [], []⟩

/-! ## Spec side of the node override: decimal integers, FNV-1a -/

/-- The value of a decimal digit character, `none` for any other byte. -/
def decimalDigit (c : Nat) : Option Nat :=
  if '0'.toNat ≤ c ∧ c ≤ '9'.toNat then some (c - '0'.toNat) else none

/-- The number written by one or more decimal digits, given least significant digit
first; `none` for the empty string and when a byte is no digit. -/
def decimalRev : GoString → Option Nat
  | [] => none
  | [c] => decimalDigit c
  | c :: rest =>
    match decimalDigit c, decimalRev rest with
    | some d, some v => some (10 * v + d)
    | _, _ => none

/-- The base-10 integer a string stands for, in the words of the claim: an optional
sign followed by one or more decimal digits, of any magnitude; `none` when the
string is no base-10 integer. Written independently of `Atoi`. -/
def decimalInteger : GoString → Option Int
  | [] => none
  | c :: rest =>
    if c = '-'.toNat then (decimalRev rest.reverse).map (fun (v : Nat) => -(v : Int))
    else if c = '+'.toNat then (decimalRev rest.reverse).map (fun (v : Nat) => (v : Int))
    else (decimalRev (c :: rest).reverse).map (fun (v : Nat) => (v : Int))

/-- The 32-bit FNV-1a hash continued from `hash`: for each byte, XOR it in, then
multiply by the FNV prime modulo `2^32`. -/
def fnv1aFrom (hash : Nat) : GoString → Nat
  | [] => hash
  | b :: rest => fnv1aFrom (((hash ^^^ b) * 16777619) % 2 ^ 32) rest

/-- The 32-bit FNV-1a hash of a byte string, from the offset basis 2166136261. -/
def fnv1a32 (data : GoString) : Nat := fnv1aFrom 2166136261 data

/-! ## Normal form of an input, order of strings -/

/-- The normalized form of an input: trimmed, all but the last byte upper-cased with
separators removed and `O`, `I`, `L` replaced, followed by the upper-cased last
byte. -/
def normalForm (s : GoString) : GoString :=
  (TrimSpace s).dropLast.filterMap normByte ++ (TrimSpace s).getLast?.toList.map upperByte

/-- Comparison `a < b` of Go strings: byte-wise lexicographic order. -/
def strLess : GoString → GoString → Bool
  | [], [] => false
  | [], _ :: _ => true
  | _ :: _, [] => false
  | a :: as, b :: bs => if a < b then true else if b < a then false else strLess as bs

/-! ## ASCII strings -/

theorem runesFrom_ascii (s : GoString) (h : IsAscii s) : runesFrom 0 s = s := by
  induction s with
  | nil => rfl
  | cons b rest ih =>
    have hb : b < RuneSelf := h b (List.mem_cons_self _ _)
    have hr : IsAscii rest := fun x hx => h x (List.mem_cons_of_mem _ hx)
    simp [runesFrom, DecodeRune, hb, ih hr]

theorem runes_ascii (s : GoString) (h : IsAscii s) : runes s = s := runesFrom_ascii s h

theorem ToUpper_ascii (tbl : Nat → Nat) (s : GoString) (h : IsAscii s) :
    ToUpper tbl s = s.map upperByte := by
  have : s.all (fun c => decide (c < RuneSelf)) = true := by
    simpa [List.all_eq_true] using h
  simp [ToUpper, this]

theorem upperByte_lt (c : Nat) (h : c < RuneSelf) : upperByte c < RuneSelf := by
  unfold upperByte
  split <;> simp [RuneSelf] at * <;> omega

theorem normalizeRune_lt (r x : Nat) (h : r < RuneSelf) (hx : normalizeRune r = some x) :
    x < RuneSelf := by
  unfold normalizeRune at hx
  split_ifs at hx <;> simp at hx <;> subst hx <;> simp_all [RuneSelf]

theorem normalize_ascii (tbl : Nat → Nat) (s : GoString) (h : IsAscii s) :
    normalize tbl s = s.filterMap normByte := by
  have hu : IsAscii (s.map upperByte) := by
    intro b hb
    obtain ⟨a, ha, rfl⟩ := List.mem_map.1 hb
    exact upperByte_lt a (h a ha)
  unfold normalize
  rw [ToUpper_ascii tbl s h, runes_ascii _ hu, List.filterMap_map]
  have key : ∀ l : List Nat, IsAscii l → l.flatMap EncodeRune = l := by
    intro l hl
    induction l with
    | nil => rfl
    | cons a l ih =>
      have ha : a < RuneSelf := hl a (List.mem_cons_self _ _)
      have : a ≤ 0x7F := by simp [RuneSelf] at ha; omega
      simp [EncodeRune, this, ih (fun x hx => hl x (List.mem_cons_of_mem _ hx))]
  apply key
  intro b hb
  obtain ⟨a, ha, hab⟩ := List.mem_filterMap.1 hb
  exact normalizeRune_lt _ _ (upperByte_lt a (h a ha)) hab

/-! ## Symbols of the two alphabets -/

set_option maxRecDepth 100000 in
theorem alphabet_facts : ∀ d, d < 32 →
    alphabet.getD d 0 < RuneSelf ∧ asciiSpace (alphabet.getD d 0) = false
      ∧ normByte (alphabet.getD d 0) = some (alphabet.getD d 0)
      ∧ indexId (alphabet.getD d 0) = (d : Int)
      ∧ upperByte (alphabet.getD d 0) = alphabet.getD d 0 := by
  decide

theorem checkAlphabet_facts : ∀ d, d < 37 →
    checkAlphabet.getD d 0 < RuneSelf ∧ asciiSpace (checkAlphabet.getD d 0) = false
      ∧ upperByte (checkAlphabet.getD d 0) = checkAlphabet.getD d 0 := by
  decide

theorem mem_checkAlphabet (c : Nat) (h : c ∈ checkAlphabet) :
    ∃ d, d < 37 ∧ c = checkAlphabet.getD d 0 := by
  obtain ⟨n, hn, rfl⟩ := List.getElem_of_mem h
  refine ⟨n, by simpa [checkAlphabet, lit] using hn, ?_⟩
  simp [List.getD_eq_getElem?_getD, List.getElem?_eq_getElem hn]

theorem mem_alphabet (c : Nat) (h : c ∈ alphabet) :
    ∃ d, d < 32 ∧ c = alphabet.getD d 0 := by
  obtain ⟨n, hn, rfl⟩ := List.getElem_of_mem h
  refine ⟨n, by simpa [alphabet, lit] using hn, ?_⟩
  simp [List.getD_eq_getElem?_getD, List.getElem?_eq_getElem hn]

/-! ## Fixed-width base-32 numerals -/

theorem digits_length (k n : Nat) : (digits k n).length = k := by
  induction k generalizing n with
  | zero => rfl
  | succ k ih => simp [digits, ih]

theorem digits_zero (k : Nat) : digits k 0 = List.replicate k '0'.toNat := by
  induction k with
  | zero => rfl
  | succ k ih =>
    rw [digits, Nat.zero_div, ih, List.replicate_succ']
    rfl

theorem digits_sym (k n c : Nat) (h : c ∈ digits k n) : ∃ d, d < 32 ∧ c = alphabet.getD d 0 := by
  induction k generalizing n with
  | zero => simp [digits] at h
  | succ k ih =>
    rw [digits, List.mem_append] at h
    rcases h with h | h
    · exact ih _ h
    · exact ⟨n % 32, Nat.mod_lt _ (by norm_num), by simpa using h⟩

theorem digits_getElem? (k n i : Nat) (h : i < k) :
    (digits k n)[i]? = alphabet[(n / 32 ^ (k - 1 - i)) % 32]? := by
  induction k generalizing n i with
  | zero => omega
  | succ k ih =>
    rw [digits]
    by_cases hi : i < k
    · rw [List.getElem?_append_left (by simpa [digits_length] using hi), ih _ _ hi,
        Nat.div_div_eq_div_mul, ← pow_succ']
      congr 3
      have : k + 1 - 1 - i = k - 1 - i + 1 := by omega
      rw [this]
    · have hik : i = k := by omega
      subst hik
      rw [List.getElem?_append_right (by simp [digits_length])]
      simp [digits_length]
      have hl : n % 32 < alphabet.length := by
        have : alphabet.length = 32 := rfl
        rw [this]; exact Nat.mod_lt _ (by norm_num)
      simp [List.getElem?_eq_getElem hl]

theorem encodeLoop_digits (i : Nat) : ∀ (n : Nat) (buf : GoString), n < 32 ^ i →
    ∃ body, encodeLoop i n buf = some (body ++ buf) ∧ body.length ≤ i
      ∧ List.replicate (i - body.length) '0'.toNat ++ body = digits i n := by
  induction i with
  | zero =>
    intro n buf h
    have : n = 0 := by simpa using h
    subst this
    exact ⟨[], by simp [encodeLoop], by simp, by simp [digits]⟩
  | succ i ih =>
    intro n buf h
    by_cases hn : n = 0
    · subst hn
      refine ⟨[], by simp [encodeLoop], by simp, ?_⟩
      simp [digits_zero]
    · have hlt : n / 32 < 32 ^ i := by
        rw [Nat.div_lt_iff_lt_mul (by norm_num)]
        rw [pow_succ] at h
        exact h
      obtain ⟨body, hb, hlen, hpad⟩ := ih (n / 32) (alphabet.getD (n % 32) 0 :: buf) hlt
      refine ⟨body ++ [alphabet.getD (n % 32) 0], ?_, by simp; omega, ?_⟩
      · rw [encodeLoop]
        simp only [hn, if_false]
        rw [hb]
        simp
      · rw [digits, ← hpad]
        simp

/-- The check symbol and body of the canonical form. -/
theorem String_eq (id : Nat) (h : id < 2 ^ 64) :
    ID.String id = some (digits 13 id ++ [computeCheckUint64 id]) := by
  unfold ID.String encode
  by_cases h0 : id = 0
  · subst h0
    simp [digits_zero]
    decide
  · simp only [h0, if_false]
    obtain ⟨body, hb, hlen, hpad⟩ := encodeLoop_digits 13 id [] (by norm_num; omega)
    rw [hb]
    simp only [List.append_nil]
    by_cases hl : body.length < 13
    · simp only [hl, if_true, hpad]
    · have : body.length = 13 := by omega
      simp only [hl, if_false]
      rw [← hpad, this]
      simp

/-! ## Decoding -/

set_option maxRecDepth 100000 in
theorem symbolValue_getD : ∀ d, d < 32 → symbolValue (alphabet.getD d 0) = d := by
  decide

theorem indexId_of_mem (c : Nat) (h : c ∈ alphabet) :
    indexId c = (symbolValue c : Int) ∧ symbolValue c < 32 ∧ normByte c = some c
      ∧ c < RuneSelf := by
  obtain ⟨d, hd, rfl⟩ := mem_alphabet c h
  obtain ⟨h1, _, h3, h4, _⟩ := alphabet_facts d hd
  rw [symbolValue_getD d hd]
  exact ⟨h4, hd, h3, h1⟩

theorem foldl_value_ge (s : GoString) (acc : Nat) :
    acc ≤ s.foldl (fun acc c => acc * 32 + symbolValue c) acc := by
  induction s generalizing acc with
  | nil => simp
  | cons c s ih =>
    simp only [List.foldl_cons]
    exact le_trans (by omega) (ih _)

theorem decodeLoop_value (s : GoString) : ∀ acc : Nat, (∀ c ∈ s, c ∈ alphabet) →
    acc ≤ maxUint64 →
    decodeLoop acc s =
      if s.foldl (fun acc c => acc * 32 + symbolValue c) acc > maxUint64
      then .error .ErrorIdOverflow
      else .ok (s.foldl (fun acc c => acc * 32 + symbolValue c) acc) := by
  induction s with
  | nil =>
    intro acc _ hacc
    simp [decodeLoop, Nat.not_lt.2 hacc]
  | cons c s ih =>
    intro acc hs hacc
    obtain ⟨hi, hlt, _, _⟩ := indexId_of_mem c (hs c (List.mem_cons_self _ _))
    have hs' : ∀ x ∈ s, x ∈ alphabet := fun x hx => hs x (List.mem_cons_of_mem _ hx)
    rw [decodeLoop, hi]
    simp only [List.foldl_cons, Int.toNat_ofNat]
    have hneg : ¬ ((symbolValue c : Int) < 0) := by omega
    simp only [hneg, if_false]
    have hmax : maxUint64 = 18446744073709551615 := by norm_num [maxUint64]
    by_cases hov : acc > (maxUint64 - symbolValue c) / 32
    · have hbig : acc * 32 + symbolValue c > maxUint64 := by
        rw [hmax] at hov ⊢; omega
      have := foldl_value_ge s (acc * 32 + symbolValue c)
      have hgt : s.foldl (fun acc c => acc * 32 + symbolValue c) (acc * 32 + symbolValue c)
          > maxUint64 := by omega
      simp only [hov, hgt, if_true]
    · have hsmall : acc * 32 + symbolValue c ≤ maxUint64 := by
        rw [hmax] at hov ⊢; omega
      have hmod : (acc * 32 + symbolValue c) % 2 ^ 64 = acc * 32 + symbolValue c := by
        apply Nat.mod_eq_of_lt
        rw [hmax] at hsmall
        norm_num
        omega
      simp only [hov, if_false, hmod]
      exact ih _ hs' hsmall

theorem normalize_alphabet (tbl : Nat → Nat) (s : GoString) (hs : ∀ c ∈ s, c ∈ alphabet) :
    normalize tbl s = s ∧ runes s = s := by
  have hasc : IsAscii s := fun c hc => (indexId_of_mem c (hs c hc)).2.2.2
  refine ⟨?_, runes_ascii s hasc⟩
  rw [normalize_ascii tbl s hasc]
  clear hasc
  induction s with
  | nil => rfl
  | cons c s ih =>
    have h1 := (indexId_of_mem c (hs c (List.mem_cons_self _ _))).2.2.1
    rw [List.filterMap_cons, h1, ih (fun x hx => hs x (List.mem_cons_of_mem _ hx))]

theorem decode_alphabet (tbl : Nat → Nat) (s : GoString) (hs : ∀ c ∈ s, c ∈ alphabet) :
    decode tbl s =
      if base32Value s > maxUint64 then .error .ErrorIdOverflow else .ok (base32Value s) := by
  unfold decode
  rw [(normalize_alphabet tbl s hs).1, (normalize_alphabet tbl s hs).2]
  exact decodeLoop_value s 0 hs (Nat.zero_le _)

theorem digits_mem_alphabet (k n c : Nat) (h : c ∈ digits k n) : c ∈ alphabet := by
  obtain ⟨d, hd, rfl⟩ := digits_sym k n c h
  have hl : d < alphabet.length := hd
  simp [List.getD_eq_getElem?_getD, List.getElem?_eq_getElem hl]

theorem foldl_digits (k : Nat) : ∀ n acc : Nat,
    (digits k n).foldl (fun acc c => acc * 32 + symbolValue c) acc
      = acc * 32 ^ k + n % 32 ^ k := by
  induction k with
  | zero => intro n acc; simp [digits, Nat.mod_one]
  | succ k ih =>
    intro n acc
    rw [digits, List.foldl_append, ih]
    simp only [List.foldl_cons, List.foldl_nil]
    have hsplit : n % 32 ^ (k + 1) = n % 32 + 32 * (n / 32 % 32 ^ k) := by
      rw [pow_succ', Nat.mod_mul]
    rw [symbolValue_getD _ (Nat.mod_lt _ (by norm_num)), hsplit]
    ring

theorem decode_digits (tbl : Nat → Nat) (v : Nat) (h : v < 2 ^ 64) :
    decode tbl (digits 13 v) = .ok v := by
  rw [decode_alphabet tbl _ (digits_mem_alphabet 13 v)]
  have hv : base32Value (digits 13 v) = v := by
    unfold base32Value
    rw [foldl_digits, Nat.mod_eq_of_lt (by norm_num; omega)]
    simp
  rw [hv]
  have : ¬ v > maxUint64 := by
    have hmax : maxUint64 = 18446744073709551615 := by norm_num [maxUint64]
    rw [hmax]; norm_num at h; omega
  simp [this]

/-! ## `Parse` on ASCII input -/

theorem trimSpaceEnd_cons (c : Nat) (rev : GoString) (hc : c < RuneSelf)
    (hsp : asciiSpace c = false) : trimSpaceEnd (c :: rev) = (c :: rev).reverse := by
  have : ¬ c ≥ RuneSelf := by omega
  simp [trimSpaceEnd, this, hsp]

theorem TrimSpace_append_last (b : GoString) (c : Nat) (hb : IsAscii b) (hc : c < RuneSelf)
    (hsp : asciiSpace c = false) :
    TrimSpace (b ++ [c]) = b.dropWhile asciiSpace ++ [c] := by
  induction b with
  | nil =>
    have : ¬ c ≥ RuneSelf := by omega
    simp [TrimSpace, this, hsp, trimSpaceEnd_cons c [] hc hsp]
  | cons x b ih =>
    have hx : ¬ x ≥ RuneSelf := by
      have := hb x (List.mem_cons_self _ _); omega
    have hb' : IsAscii b := fun y hy => hb y (List.mem_cons_of_mem _ hy)
    rw [List.cons_append, TrimSpace]
    simp only [hx, if_false]
    by_cases hxs : asciiSpace x = true
    · simp only [hxs, if_true, List.dropWhile_cons]
      exact ih hb'
    · have hxs' : asciiSpace x = false := by simpa using hxs
      simp only [hxs', List.dropWhile_cons]
      have hrev : (x :: (b ++ [c])).reverse = c :: (x :: b).reverse := by simp
      rw [hrev, trimSpaceEnd_cons c _ hc hsp]
      simp

theorem parse_ascii (tbl : Nat → Nat) (b : GoString) (c v : Nat) (hb : IsAscii b)
    (hc : c < RuneSelf) (hsp : asciiSpace c = false) (hv : v < 2 ^ 64)
    (hnorm : (b.dropWhile asciiSpace).filterMap normByte = digits 13 v) :
    Parse tbl (b ++ [c]) =
      if upperByte c ≠ computeCheckUint64 v then .err .ErrorBadCheckDigit else .ok v := by
  have hb2 : IsAscii (b.dropWhile asciiSpace) :=
    fun y hy => hb y ((List.dropWhile_sublist _).subset hy)
  have hsasc : IsAscii (b.dropWhile asciiSpace ++ [c]) := by
    intro y hy
    rcases List.mem_append.1 hy with h | h
    · exact hb2 y h
    · simp at h; subst h; exact hc
  have hlen : 13 ≤ (b.dropWhile asciiSpace).length := by
    have h1 := List.length_filterMap_le normByte (b.dropWhile asciiSpace)
    rw [hnorm, digits_length] at h1
    exact h1
  unfold Parse
  simp only [TrimSpace_append_last b c hb hc hsp]
  generalize b.dropWhile asciiSpace = b2 at hb2 hsasc hlen hnorm
  have hl : (b2 ++ [c]).length = b2.length + 1 := by simp
  have h14 : ¬ (b2 ++ [c]).length < 14 := by rw [hl]; omega
  have htake : (b2 ++ [c]).take ((b2 ++ [c]).length - 1) = b2 := by
    rw [hl, Nat.add_sub_cancel, List.take_left']
    rfl
  have hbody : normalize tbl b2 = digits 13 v := by rw [normalize_ascii tbl b2 hb2, hnorm]
  have hup : (ToUpper tbl (b2 ++ [c])).get? ((b2 ++ [c]).length - 1) = some (upperByte c) := by
    rw [ToUpper_ascii tbl _ hsasc, hl, Nat.add_sub_cancel, List.map_append, List.get?_eq_getElem?,
      List.getElem?_append_right (by simp)]
    simp
  simp only [h14, if_false, htake, hbody, digits_length, ne_eq, not_true_eq_false, hup,
    decode_digits tbl v hv]

theorem digits_ascii (k n : Nat) : IsAscii (digits k n) := by
  intro c hc
  obtain ⟨d, hd, rfl⟩ := digits_sym k n c hc
  exact (alphabet_facts d hd).1

theorem norm_syms (l : GoString) (hl : ∀ c ∈ l, c ∈ alphabet) :
    (l.dropWhile asciiSpace).filterMap normByte = l := by
  have hf : ∀ m : GoString, (∀ c ∈ m, c ∈ alphabet) → m.filterMap normByte = m := by
    intro m hm
    induction m with
    | nil => rfl
    | cons c m ih =>
      rw [List.filterMap_cons, (indexId_of_mem c (hm c (List.mem_cons_self _ _))).2.2.1,
        ih (fun x hx => hm x (List.mem_cons_of_mem _ hx))]
  cases l with
  | nil => rfl
  | cons x l =>
    obtain ⟨d, hd, hx⟩ := mem_alphabet x (hl x (List.mem_cons_self _ _))
    have hsp : asciiSpace x = false := by rw [hx]; exact (alphabet_facts d hd).2.1
    rw [List.dropWhile_cons, hsp]
    exact hf _ hl

theorem check_facts (v : Nat) :
    computeCheckUint64 v < RuneSelf ∧ asciiSpace (computeCheckUint64 v) = false
      ∧ upperByte (computeCheckUint64 v) = computeCheckUint64 v :=
  checkAlphabet_facts (v % 37) (Nat.mod_lt _ (by norm_num))

/-! ## The canonical text form -/

/-- C1: for every 64-bit identifier `id`, `id.String()` is produced and `Parse` of it
succeeds and returns exactly `id`. -/
theorem parse_string_roundtrip (tbl : Nat → Nat) (id : Nat) (h : id < 2 ^ 64) :
    ∃ s, ID.String id = some s ∧ Parse tbl s = .ok id := by
  refine ⟨_, String_eq id h, ?_⟩
  obtain ⟨h1, h2, h3⟩ := check_facts id
  rw [parse_ascii tbl (digits 13 id) (computeCheckUint64 id) id (digits_ascii _ _) h1 h2 h
    (norm_syms _ (digits_mem_alphabet 13 id)), h3]
  simp

theorem parse_string_roundtrip_witness :
    ∃ s, ID.String 12345678901234567 = some s
      ∧ Parse (fun r => r) s = .ok 12345678901234567 :=
  parse_string_roundtrip (fun r => r) 12345678901234567 (by norm_num)

/-- C3: replacing the last character of `id.String()` by any other symbol of the
37-symbol check alphabet makes `Parse` fail with `ErrorBadCheckDigit`. -/
theorem parse_wrong_check_digit (tbl : Nat → Nat) (id : Nat) (s : GoString) (c : Nat)
    (h : id < 2 ^ 64) (hs : ID.String id = some s) (hc : c ∈ checkAlphabet)
    (hne : s.getLast? ≠ some c) :
    Parse tbl (s.take 13 ++ [c]) = .err .ErrorBadCheckDigit := by
  rw [String_eq id h] at hs
  have hs' : s = digits 13 id ++ [computeCheckUint64 id] := (Option.some.inj hs).symm
  subst hs'
  have hne' : computeCheckUint64 id ≠ c := by
    intro heq
    apply hne
    simp [heq]
  have htake : (digits 13 id ++ [computeCheckUint64 id]).take 13 = digits 13 id := by
    rw [List.take_left']
    exact digits_length 13 id
  obtain ⟨d, hd, rfl⟩ := mem_checkAlphabet c hc
  obtain ⟨h1, h2, h3⟩ := checkAlphabet_facts d hd
  rw [htake, parse_ascii tbl (digits 13 id) _ id (digits_ascii _ _) h1 h2 h
    (norm_syms _ (digits_mem_alphabet 13 id)), h3, if_pos (Ne.symm hne')]

theorem parse_wrong_check_digit_witness :
    Parse (fun r => r) ((lit "00AYWAHEPPJW7U").take 13 ++ [('*').toNat])
      = .err .ErrorBadCheckDigit :=
  parse_wrong_check_digit (fun r => r) 12345678901234567 (lit "00AYWAHEPPJW7U") ('*').toNat
    (by norm_num) (by decide) (by decide) (by decide)

/-- C4: for every 64-bit identifier `id`, `id.String()` has exactly 14 characters; for
`i` in 0..12 its `i`-th character is `alphabet[(id >> 5*(12-i)) mod 32]`, and its
last character is `checkAlphabet[id mod 37]`. -/
theorem string_layout (id : Nat) (h : id < 2 ^ 64) :
    ∃ s, ID.String id = some s ∧ s.length = 14
      ∧ (∀ i, i < 13 → s[i]? = alphabet[(id >>> (5 * (12 - i))) % 32]?)
      ∧ s[13]? = checkAlphabet[id % 37]? := by
  refine ⟨_, String_eq id h, by simp [digits_length], ?_, ?_⟩
  · intro i hi
    rw [List.getElem?_append_left (by simpa [digits_length] using hi),
      digits_getElem? 13 id i hi, Nat.shiftRight_eq_div_pow, pow_mul]
    norm_num
  · rw [List.getElem?_append_right (by simp [digits_length])]
    have hl : id % 37 < checkAlphabet.length := Nat.mod_lt _ (by decide)
    simp [digits_length, computeCheckUint64, List.getElem?_eq_getElem hl]

theorem string_layout_witness :
    ∃ s, ID.String 12345678901234567 = some s ∧ s.length = 14
      ∧ (∀ i, i < 13 → s[i]? = alphabet[(12345678901234567 >>> (5 * (12 - i))) % 32]?)
      ∧ s[13]? = checkAlphabet[12345678901234567 % 37]? :=
  string_layout 12345678901234567 (by norm_num)

/-- C6: on a string made only of symbols of the 32-symbol alphabet (any length),
`decode` returns `ErrorIdOverflow` if the base-32 value of the string exceeds
`2^64 - 1` and otherwise returns exactly that value. -/
theorem decode_overflow_boundary (tbl : Nat → Nat) (s : GoString)
    (hs : ∀ c ∈ s, c ∈ alphabet) :
    decode tbl s =
      if base32Value s > 2 ^ 64 - 1 then .error .ErrorIdOverflow else .ok (base32Value s) :=
  decode_alphabet tbl s hs

theorem decode_overflow_boundary_witness :
    decode (fun r => r) (lit "000G000000000000") =
      if base32Value (lit "000G000000000000") > 2 ^ 64 - 1 then .error .ErrorIdOverflow
      else .ok (base32Value (lit "000G000000000000")) :=
  decode_overflow_boundary (fun r => r) (lit "000G000000000000") (by decide)

/-! ## Tolerated spellings -/

set_option maxRecDepth 100000 in
theorem alphabet_lower_facts : ∀ d, d < 32 →
    lowerByte (alphabet.getD d 0) < RuneSelf
      ∧ asciiSpace (lowerByte (alphabet.getD d 0)) = false
      ∧ normByte (lowerByte (alphabet.getD d 0)) = some (alphabet.getD d 0) := by
  decide

set_option maxRecDepth 100000 in
theorem checkAlphabet_lower_facts : ∀ d, d < 37 →
    lowerByte (checkAlphabet.getD d 0) < RuneSelf
      ∧ asciiSpace (lowerByte (checkAlphabet.getD d 0)) = false
      ∧ upperByte (lowerByte (checkAlphabet.getD d 0)) = checkAlphabet.getD d 0 := by
  decide

theorem separator_facts (x : Nat) (h : IsSeparator x) :
    x < RuneSelf ∧ normByte x = none := by
  rcases h with h | h | h | h <;> subst h <;> decide

theorem respelled_norm (t b : GoString) (h : Respelled t b) (ht : ∀ c ∈ t, c ∈ alphabet) :
    IsAscii b ∧ b.filterMap normByte = t
      ∧ (b.dropWhile asciiSpace).filterMap normByte = t := by
  induction h with
  | nil => exact ⟨fun _ hx => by simp at hx, rfl, rfl⟩
  | @keep c t s _ ih =>
    obtain ⟨h1, h2, _⟩ := ih (fun x hx => ht x (List.mem_cons_of_mem _ hx))
    obtain ⟨d, hd, rfl⟩ := mem_alphabet c (ht c (List.mem_cons_self _ _))
    obtain ⟨f1, f2, f3, _, _⟩ := alphabet_facts d hd
    refine ⟨?_, ?_, ?_⟩
    · intro x hx
      rcases List.mem_cons.1 hx with hx | hx
      · subst hx; exact f1
      · exact h1 x hx
    · rw [List.filterMap_cons, f3, h2]
    · rw [List.dropWhile_cons, f2]
      simp only [Bool.false_eq_true, if_false]
      rw [List.filterMap_cons, f3, h2]
  | @lower c t s _ ih =>
    obtain ⟨h1, h2, _⟩ := ih (fun x hx => ht x (List.mem_cons_of_mem _ hx))
    obtain ⟨d, hd, rfl⟩ := mem_alphabet c (ht c (List.mem_cons_self _ _))
    obtain ⟨f1, f2, f3⟩ := alphabet_lower_facts d hd
    refine ⟨?_, ?_, ?_⟩
    · intro x hx
      rcases List.mem_cons.1 hx with hx | hx
      · subst hx; exact f1
      · exact h1 x hx
    · rw [List.filterMap_cons, f3, h2]
    · rw [List.dropWhile_cons, f2]
      simp only [Bool.false_eq_true, if_false]
      rw [List.filterMap_cons, f3, h2]
  | @sep x t s hx _ ih =>
    obtain ⟨h1, h2, h3⟩ := ih ht
    obtain ⟨f1, f2⟩ := separator_facts x hx
    refine ⟨?_, ?_, ?_⟩
    · intro y hy
      rcases List.mem_cons.1 hy with hy | hy
      · subst hy; exact f1
      · exact h1 y hy
    · rw [List.filterMap_cons, f2, h2]
    · rw [List.dropWhile_cons]
      split
      · exact h3
      · rw [List.filterMap_cons, f2, h2]

theorem string_parts (id : Nat) (canon : GoString) (c : Nat) (h : id < 2 ^ 64)
    (hs : ID.String id = some canon) (hc : canon.getLast? = some c) :
    canon.take 13 = digits 13 id ∧ c = computeCheckUint64 id := by
  rw [String_eq id h] at hs
  have hs' : canon = digits 13 id ++ [computeCheckUint64 id] := (Option.some.inj hs).symm
  subst hs'
  refine ⟨?_, ?_⟩
  · rw [List.take_left']
    exact digits_length 13 id
  · simpa using hc.symm

/-- C8: for every identifier `id`, every string obtained from `id.String()` by
lower-casing any of its letters and inserting any number of `-`, `_`, space and
`.` characters anywhere before its final (check) character is parsed to `id`. -/
theorem parse_respelled (tbl : Nat → Nat) (id : Nat) (canon b : GoString) (c : Nat)
    (h : id < 2 ^ 64) (hs : ID.String id = some canon)
    (hb : Respelled (canon.take 13) b) (hc : canon.getLast? = some c) :
    Parse tbl (b ++ [c]) = .ok id ∧ Parse tbl (b ++ [lowerByte c]) = .ok id := by
  obtain ⟨hbody, hchk⟩ := string_parts id canon c h hs hc
  rw [hbody] at hb
  obtain ⟨h1, _, h3⟩ := respelled_norm _ b hb (digits_mem_alphabet 13 id)
  obtain ⟨c1, c2, c3⟩ := check_facts id
  have hl := checkAlphabet_lower_facts (id % 37) (Nat.mod_lt _ (by norm_num))
  change lowerByte (computeCheckUint64 id) < RuneSelf
    ∧ asciiSpace (lowerByte (computeCheckUint64 id)) = false
    ∧ upperByte (lowerByte (computeCheckUint64 id)) = computeCheckUint64 id at hl
  obtain ⟨l1, l2, l3⟩ := hl
  subst hchk
  refine ⟨?_, ?_⟩
  · rw [parse_ascii tbl b _ id h1 c1 c2 h h3, c3]
    simp
  · rw [parse_ascii tbl b _ id h1 l1 l2 h h3, l3]
    simp

theorem parse_respelled_witness :
    Parse (fun r => r) (lit " 00-ay_WAHE.pp jw7 " ++ [('U').toNat]) = .ok 12345678901234567
      ∧ Parse (fun r => r) (lit " 00-ay_WAHE.pp jw7 " ++ [lowerByte ('U').toNat])
          = .ok 12345678901234567 :=
  parse_respelled (fun r => r) 12345678901234567 (lit "00AYWAHEPPJW7U")
    (lit " 00-ay_WAHE.pp jw7 ") ('U').toNat (by norm_num) (by decide)
    (.sep _ (by unfold IsSeparator; decide) (.keep _ (.keep _ (.sep _ (by unfold IsSeparator; decide) (.lower _ (.lower _
      (.sep _ (by unfold IsSeparator; decide) (.keep _ (.keep _ (.keep _ (.keep _ (.sep _ (by unfold IsSeparator; decide)
      (.lower _ (.lower _ (.sep _ (by unfold IsSeparator; decide) (.lower _ (.lower _ (.keep _
      (.sep _ (by unfold IsSeparator; decide) .nil)))))))))))))))))))
    (by decide)

theorem lookalike_facts (c d : Nat) (hc : c ∈ alphabet) (h : LookAlike c d) :
    d < RuneSelf ∧ asciiSpace d = false ∧ normByte d = some c := by
  rcases h with h | ⟨h1, h2⟩ | ⟨h1, h2 | h2⟩
  · subst h
    obtain ⟨k, hk, rfl⟩ := mem_alphabet d hc
    obtain ⟨f1, f2, f3, _, _⟩ := alphabet_facts k hk
    exact ⟨f1, f2, f3⟩
  · subst h1 h2; decide
  · subst h1 h2; decide
  · subst h1 h2; decide

theorem lookalike_norm (t b : GoString) (h : List.Forall₂ LookAlike t b)
    (ht : ∀ c ∈ t, c ∈ alphabet) :
    IsAscii b ∧ b.filterMap normByte = t
      ∧ (b.dropWhile asciiSpace).filterMap normByte = t := by
  induction h with
  | nil => exact ⟨fun _ hx => by simp at hx, rfl, rfl⟩
  | @cons c d t s hcd _ ih =>
    obtain ⟨h1, h2, _⟩ := ih (fun x hx => ht x (List.mem_cons_of_mem _ hx))
    obtain ⟨f1, f2, f3⟩ := lookalike_facts c d (ht c (List.mem_cons_self _ _)) hcd
    refine ⟨?_, ?_, ?_⟩
    · intro x hx
      rcases List.mem_cons.1 hx with hx | hx
      · subst hx; exact f1
      · exact h1 x hx
    · rw [List.filterMap_cons, f3, h2]
    · rw [List.dropWhile_cons, f2]
      simp only [Bool.false_eq_true, if_false]
      rw [List.filterMap_cons, f3, h2]

/-- C7 (as stated, refuted): in the canonical form of the identifier 0 the check
character is the digit zero; writing the letter `O` in its place makes `Parse`
fail with `ErrorBadCheckDigit`. -/
theorem parse_lookalike_check_fails :
    ID.String 0 = some (lit "00000000000000")
      ∧ List.Forall₂ LookAlike (lit "00000000000000") (lit "0000000000000O")
      ∧ Parse (fun r => r) (lit "0000000000000O") = .err .ErrorBadCheckDigit := by
  refine ⟨by decide, ?_, by decide⟩
  simp [lit, LookAlike]

/-- C7 (amended): for every identifier `id` and every string obtained from
`id.String()` by replacing, among its first 13 characters, any `0` by `O` and any
`1` by `I` or `L`, the check character being left as it is, `Parse` succeeds and
returns `id`. -/
theorem parse_lookalike_body (tbl : Nat → Nat) (id : Nat) (canon b : GoString) (c : Nat)
    (h : id < 2 ^ 64) (hs : ID.String id = some canon)
    (hb : List.Forall₂ LookAlike (canon.take 13) b) (hc : canon.getLast? = some c) :
    Parse tbl (b ++ [c]) = .ok id := by
  obtain ⟨hbody, hchk⟩ := string_parts id canon c h hs hc
  rw [hbody] at hb
  obtain ⟨h1, _, h3⟩ := lookalike_norm _ b hb (digits_mem_alphabet 13 id)
  obtain ⟨c1, c2, c3⟩ := check_facts id
  subst hchk
  rw [parse_ascii tbl b _ id h1 c1 c2 h h3, c3]
  simp

theorem parse_lookalike_body_witness :
    Parse (fun r => r) (lit "OOOOOOOOOOOIL" ++ [('~').toNat]) = .ok 33 :=
  parse_lookalike_body (fun r => r) 33 (lit "0000000000011~")
    (lit "OOOOOOOOOOOIL") ('~').toNat (by norm_num) (by decide)
    (by simp [lit, LookAlike]) (by decide)

/-- C9 (failing input): on the 15-byte string `0ı00000000000X`, whose second character
is U+0131 (two bytes, upper-cased by Unicode to the one-byte letter `I`), the
body normalizes to 13 characters but `strings.ToUpper(s)` has only 14 bytes, so
the index `len(s)-1 = 14` is out of range and `Parse` panics. -/
theorem parse_panics_on_shrinking_upper (tbl : Nat → Nat) (h : tbl 0x131 = 0x49) :
    Parse tbl (lit "0" ++ [0xC4, 0xB1] ++ lit "00000000000X") = .panic := by
  have hs : lit "0" ++ [0xC4, 0xB1] ++ lit "00000000000X"
      = [48, 0xC4, 0xB1, 48, 48, 48, 48, 48, 48, 48, 48, 48, 48, 48, 88] := by decide
  have htrim : TrimSpace [48, 0xC4, 0xB1, 48, 48, 48, 48, 48, 48, 48, 48, 48, 48, 48, 88]
      = [48, 0xC4, 0xB1, 48, 48, 48, 48, 48, 48, 48, 48, 48, 48, 48, 88] := by decide
  have hup : ToUpper tbl [48, 0xC4, 0xB1, 48, 48, 48, 48, 48, 48, 48, 48, 48, 48, 48, 88]
      = [48, 73, 48, 48, 48, 48, 48, 48, 48, 48, 48, 48, 48, 88] := by
    have hall : ([48, 0xC4, 0xB1, 48, 48, 48, 48, 48, 48, 48, 48, 48, 48, 48, 88] : GoString).all
        (fun c => decide (c < RuneSelf)) = false := by decide
    have hr : runes [48, 0xC4, 0xB1, 48, 48, 48, 48, 48, 48, 48, 48, 48, 48, 48, 88]
        = [48, 0x131, 48, 48, 48, 48, 48, 48, 48, 48, 48, 48, 48, 88] := by decide
    simp only [ToUpper, hall, Map, hr]
    simp [unicodeToUpper, EncodeRune, h]
  have hup' : ToUpper tbl [48, 0xC4, 0xB1, 48, 48, 48, 48, 48, 48, 48, 48, 48, 48, 48]
      = [48, 73, 48, 48, 48, 48, 48, 48, 48, 48, 48, 48, 48] := by
    have hall : ([48, 0xC4, 0xB1, 48, 48, 48, 48, 48, 48, 48, 48, 48, 48, 48] : GoString).all
        (fun c => decide (c < RuneSelf)) = false := by decide
    have hr : runes [48, 0xC4, 0xB1, 48, 48, 48, 48, 48, 48, 48, 48, 48, 48, 48]
        = [48, 0x131, 48, 48, 48, 48, 48, 48, 48, 48, 48, 48, 48] := by decide
    simp only [ToUpper, hall, Map, hr]
    simp [unicodeToUpper, EncodeRune, h]
  have hbody : normalize tbl [48, 0xC4, 0xB1, 48, 48, 48, 48, 48, 48, 48, 48, 48, 48, 48]
      = [48, 49, 48, 48, 48, 48, 48, 48, 48, 48, 48, 48, 48] := by
    rw [normalize, hup']
    decide
  rw [hs]
  simp [Parse, htrim, hup, hbody]

theorem parse_panics_on_shrinking_upper_witness :
    Parse (fun r => if r = 0x131 then 0x49 else r)
      (lit "0" ++ [0xC4, 0xB1] ++ lit "00000000000X") = .panic :=
  parse_panics_on_shrinking_upper (fun r => if r = 0x131 then 0x49 else r) (by decide)

/-! ## Bit layout -/

theorem or_eq_add (x b i : Nat) (hx : 2 ^ i ∣ x) (hb : b < 2 ^ i) : x ||| b = x + b := by
  obtain ⟨a, rfl⟩ := hx
  exact (Nat.mul_add_lt_is_or hb a).symm

theorem pack_eq (k t n c : Nat) (ht : t < 2 ^ 43) (hn : n < 256) (hc : c < 32) :
    (k <<< 56) ||| (t <<< 13) ||| (n <<< 5) ||| c
      = k * 2 ^ 56 + t * 2 ^ 13 + n * 2 ^ 5 + c := by
  simp only [Nat.shiftLeft_eq]
  rw [or_eq_add (k * 2 ^ 56) (t * 2 ^ 13) 56 (Dvd.intro_left _ rfl) (by norm_num at ht ⊢; omega),
    or_eq_add _ (n * 2 ^ 5) 13 (by norm_num; omega) (by norm_num; omega),
    or_eq_add _ c 5 (by norm_num; omega) (by norm_num; omega)]

theorem Kind_eq (id : Nat) : ID.Kind id = id / 2 ^ 56 % 256 := by
  have h : ((1 : Nat) <<< 8) - 1 = 2 ^ 8 - 1 := by rw [Nat.shiftLeft_eq]; norm_num
  simp only [ID.Kind, timeBits, nodeBits, countBits, kindBits, h,
    Nat.and_pow_two_sub_one_eq_mod, Nat.shiftRight_eq_div_pow]
  norm_num

theorem Node_eq (id : Nat) : ID.Node id = id / 2 ^ 5 % 256 := by
  have h : ((1 : Nat) <<< 8) - 1 = 2 ^ 8 - 1 := by rw [Nat.shiftLeft_eq]; norm_num
  simp only [ID.Node, nodeBits, countBits, h,
    Nat.and_pow_two_sub_one_eq_mod, Nat.shiftRight_eq_div_pow]
  norm_num

theorem TimestampMS_eq (id : Nat) :
    ID.TimestampMS id = (id / 2 ^ 13 % 2 ^ 43 + epochMS) % 2 ^ 64 := by
  have h : ((1 : Nat) <<< 43) - 1 = 2 ^ 43 - 1 := by rw [Nat.shiftLeft_eq]; norm_num
  simp only [ID.TimestampMS, timeBits, nodeBits, countBits, h,
    Nat.and_pow_two_sub_one_eq_mod, Nat.shiftRight_eq_div_pow]

/-- C5: for `k` in 0..255, `t < 2^43`, `n` in 0..255 and `c` in 0..31, the identifier
`v = (k << 56) | (t << 13) | (n << 5) | c` has `v.Kind() = k`, `v.Node() = n` and
`v.TimestampMS() = t + epochMS`, the sum not overflowing 64 bits. -/
theorem accessors_undo_packing (k t n c : Nat) (hk : k < 256) (ht : t < 2 ^ 43)
    (hn : n < 256) (hc : c < 32) :
    ID.Kind ((k <<< 56) ||| (t <<< 13) ||| (n <<< 5) ||| c) = k
      ∧ ID.Node ((k <<< 56) ||| (t <<< 13) ||| (n <<< 5) ||| c) = n
      ∧ ID.TimestampMS ((k <<< 56) ||| (t <<< 13) ||| (n <<< 5) ||| c) = t + epochMS
      ∧ t + epochMS < 2 ^ 64 ∧ epochMS = 1747267200000 := by
  rw [pack_eq k t n c ht hn hc, Kind_eq, Node_eq, TimestampMS_eq]
  norm_num [epochMS] at *
  omega

theorem accessors_undo_packing_witness :
    ID.Kind ((9 <<< 56) ||| (1000 <<< 13) ||| (7 <<< 5) ||| 3) = 9
      ∧ ID.Node ((9 <<< 56) ||| (1000 <<< 13) ||| (7 <<< 5) ||| 3) = 7
      ∧ ID.TimestampMS ((9 <<< 56) ||| (1000 <<< 13) ||| (7 <<< 5) ||| 3) = 1000 + epochMS
      ∧ 1000 + epochMS < 2 ^ 64 ∧ epochMS = 1747267200000 :=
  accessors_undo_packing 9 1000 7 3 (by norm_num) (by norm_num) (by norm_num) (by norm_num)

/-! ## The generator -/

theorem assemble_eq (k n ms c : Nat) (hk : k < 256) (hn : n < 256) (hms : ms < 2 ^ 43)
    (hc : c < 32) :
    assemble k n ms c
      = .propose (k * 2 ^ 56 + ms * 2 ^ 13 + n * 2 ^ 5 + c) (ms * 2 ^ 5 + c) := by
  have h1 : (k <<< 56) % 2 ^ 64 = k <<< 56 := by
    apply Nat.mod_eq_of_lt; rw [Nat.shiftLeft_eq]; norm_num; omega
  have h2 : (ms <<< 13) % 2 ^ 64 = ms <<< 13 := by
    apply Nat.mod_eq_of_lt; rw [Nat.shiftLeft_eq]; norm_num at hms ⊢; omega
  have h3 : (n <<< 5) % 2 ^ 64 = n <<< 5 := by
    apply Nat.mod_eq_of_lt; rw [Nat.shiftLeft_eq]; norm_num; omega
  have h4 : (ms <<< 5) % 2 ^ 64 = ms <<< 5 := by
    apply Nat.mod_eq_of_lt; rw [Nat.shiftLeft_eq]; norm_num at hms ⊢; omega
  simp only [assemble, timeBits, nodeBits, countBits, Nat.reduceAdd, h1, h2, h3, h4]
  rw [pack_eq k ms n c hms hn hc, Nat.shiftLeft_eq,
    or_eq_add _ c 5 (Dvd.intro_left _ rfl) (by norm_num; omega)]

/-- A proposing pass moves the state word strictly up and returns the identifier
packed from the new state word. -/
theorem attempt_propose (k n : Nat) (now : Int) (st id next : Nat) (hk : k < 256)
    (hn : n < 256) (hst : st < 2 ^ 48) (h : attempt k n now st = .propose id next) :
    st < next ∧ next < 2 ^ 48
      ∧ id = k * 2 ^ 56 + next / 32 * 2 ^ 13 + n * 2 ^ 5 + next % 32 := by
  have hc : countMax - 1 = 2 ^ 5 - 1 := by simp [countMax, countBits, Nat.shiftLeft_eq]
  have hcm : countMax = 32 := by simp [countMax, countBits, Nat.shiftLeft_eq]
  have htm : timeMax = 2 ^ 43 := by simp [timeMax, timeBits, Nat.shiftLeft_eq]
  simp only [attempt, hc, Nat.and_pow_two_sub_one_eq_mod] at h
  simp only [countBits, Nat.shiftRight_eq_div_pow, hcm, htm] at h
  generalize (now % 2 ^ 64).toNat = m at h
  norm_num at hst
  split_ifs at h with h1 h2 h3 h4 h5 h6 h7
  · rw [assemble_eq k n (st / 2 ^ 5) (st % 2 ^ 5 + 1) hk hn (by norm_num; omega)
      (by norm_num at h5 ⊢; omega)] at h
    injection h with hid hnext
    subst hid hnext
    norm_num at *
    omega
  · exact absurd rfl h4
  · rw [assemble_eq k n (st / 2 ^ 5) (st % 2 ^ 5 + 1) hk hn (by norm_num; omega)
      (by norm_num at h7 ⊢; omega)] at h
    injection h with hid hnext
    subst hid hnext
    norm_num at *
    omega
  · rw [assemble_eq k n (m - epochMS) 0 hk hn (by norm_num at h2 ⊢; omega) (by norm_num)] at h
    injection h with hid hnext
    subst hid hnext
    norm_num at *
    omega

theorem New_state (k n : Nat) (hk : k < 256) (hn : n < 256) (clock : List Int) :
    ∀ st : Nat, st < 2 ^ 48 →
      (New k n clock st).2 < 2 ^ 48
      ∧ (∀ id, (New k n clock st).1 = .returned id →
          st < (New k n clock st).2
          ∧ id = k * 2 ^ 56 + (New k n clock st).2 / 32 * 2 ^ 13 + n * 2 ^ 5
              + (New k n clock st).2 % 32)
      ∧ ((∀ id, (New k n clock st).1 ≠ .returned id) → (New k n clock st).2 = st) := by
  induction clock with
  | nil =>
    intro st hst
    have hst' := hst
    norm_num at hst'
    simp [New, hst']
  | cons now clock ih =>
    intro st hst
    rw [New]
    cases h : attempt k n now st with
    | failed e =>
      have hst' := hst
      norm_num at hst'
      simp [hst']
    | retry => simpa using ih st hst
    | propose id next =>
      obtain ⟨h1, h2, h3⟩ := attempt_propose k n now st id next hk hn hst h
      simp only [NewResult.returned.injEq, ne_eq, forall_eq', not_true_eq_false,
        IsEmpty.forall_iff, and_true]
      exact ⟨h2, h1, h3⟩

theorem issued_increasing (k n : Nat) (hk : k < 256) (hn : n < 256)
    (calls : List (List Int)) :
    ∀ st : Nat, st < 2 ^ 48 →
      (∀ id ∈ issued k n calls st,
          k * 2 ^ 56 + st / 32 * 2 ^ 13 + n * 2 ^ 5 + st % 32 < id ∧ id < 2 ^ 64)
      ∧ (issued k n calls st).Pairwise (· < ·) := by
  induction calls with
  | nil => intro st _; simp [issued]
  | cons clock calls ih =>
    intro st hst
    obtain ⟨hlt, hret, hnot⟩ := New_state k n hk hn clock st hst
    rw [issued]
    rcases hN : New k n clock st with ⟨r, st'⟩
    rw [hN] at hlt hret hnot
    simp only at hlt hret hnot
    cases r with
    | returned id =>
      obtain ⟨hgt, hid⟩ := hret id rfl
      obtain ⟨ih1, ih2⟩ := ih st' hlt
      simp only [List.mem_cons, forall_eq_or_imp, List.pairwise_cons]
      refine ⟨⟨?_, ?_⟩, ?_, ih2⟩
      · subst hid
        norm_num at *
        omega
      · intro x hx
        have := ih1 x hx
        norm_num at *
        omega
      · intro x hx
        have := ih1 x hx
        subst hid
        exact this.1
    | failed e =>
      have : st' = st := hnot (by simp)
      subst this
      exact ih st' hst
    | waiting =>
      have : st' = st := hnot (by simp)
      subst this
      exact ih st' hst

/-- C2: starting from the initial generator state 0, for any sequence of `New` calls
with the same kind and node and arbitrary clock readings, every identifier
returned is strictly greater, as an unsigned 64-bit integer, than every
identifier returned before it. -/
theorem issued_strictly_increasing (k n : Nat) (hk : k < 256) (hn : n < 256)
    (calls : List (List Int)) :
    (issued k n calls 0).Pairwise (· < ·) ∧ ∀ id ∈ issued k n calls 0, id < 2 ^ 64 :=
  ⟨(issued_increasing k n hk hn calls 0 (by norm_num)).2,
    fun id hid => ((issued_increasing k n hk hn calls 0 (by norm_num)).1 id hid).2⟩

theorem issued_strictly_increasing_witness :
    (issued 1 7 [[1747267200005], [1747267200000, 1747267200009], [-1], [1747267200001]] 0
        ).Pairwise (· < ·)
      ∧ ∀ id ∈ issued 1 7
          [[1747267200005], [1747267200000, 1747267200009], [-1], [1747267200001]] 0,
          id < 2 ^ 64 :=
  issued_strictly_increasing 1 7 (by norm_num) (by norm_num) _

/-- C10 (failing input): with the clock reading `-1`, a time before the epoch, `New`
returns the timestamp-overflow error, not the time-before-epoch error; the
state is left unchanged. -/
theorem new_negative_clock (k n st : Nat) (clock : List Int) :
    New k n ((-1) :: clock) st = (.failed .timestampOverflow, st) := by
  have h : attempt k n (-1) st = .failed .timestampOverflow := by
    have hm : (((-1 : Int)) % 2 ^ 64).toNat = 18446744073709551615 := by decide
    simp [attempt, hm, epochMS, timeMax, timeBits, Nat.shiftLeft_eq]
  rw [New, h]

/-! ## Node identity -/

/-- C14 (failing input): the override string `ds` is not a base-10 integer, and its
FNV-1a hash 0x461CAC00 has low byte 0, so `InitNodeID` sets the node identity to
0: `fnv1a8` does return 0. -/
theorem fnv1a8_zero_override (derived : Nat) :
    Atoi (lit "ds") = none ∧ fnv1a8 (lit "ds") = 0 ∧ InitNodeID (lit "ds") derived = 0 := by
  refine ⟨by decide, by decide, ?_⟩
  have h1 : (lit "ds" = []) = False := by decide
  have h2 : isNumeric (lit "ds") = false := by decide
  have h3 : fnv1a8 (lit "ds") = 0 := by decide
  simp only [InitNodeID, h1, h2, h3, if_false, Bool.false_eq_true]

theorem Atoi_ne_nil (env : GoString) (v : Int) (h : Atoi env = some v) : env ≠ [] := by
  intro he
  subst he
  simp [Atoi] at h

/-! ## Fields of issued identifiers -/

theorem time_eq (id : Nat) : ID.time id = id / 2 ^ 13 % 2 ^ 43 := by
  have h : ((1 : Nat) <<< 43) - 1 = 2 ^ 43 - 1 := by rw [Nat.shiftLeft_eq]; norm_num
  simp only [ID.time, timeBits, nodeBits, countBits, h,
    Nat.and_pow_two_sub_one_eq_mod, Nat.shiftRight_eq_div_pow]

theorem counter_eq (id : Nat) : ID.counter id = id % 2 ^ 5 := by
  have hc : countMax - 1 = 2 ^ 5 - 1 := by simp [countMax, countBits, Nat.shiftLeft_eq]
  simp only [ID.counter, hc, Nat.and_pow_two_sub_one_eq_mod]

theorem reachable_lt (st : Nat) (h : Reachable st) : st < 2 ^ 48 := by
  induction h with
  | init => norm_num
  | call k n clock st hk hn _ ih => exact (New_state k n hk hn clock st ih).1

/-- One pass of the loop of `New` in arithmetic form. -/
theorem attempt_eq (k n : Nat) (now : Int) (st : Nat) (hk : k < 256) (hn : n < 256)
    (hst : st < 2 ^ 48) :
    attempt k n now st =
      if (now % 2 ^ 64).toNat < epochMS then .failed .timeBeforeEpoch
      else if (now % 2 ^ 64).toNat - epochMS ≥ 2 ^ 43 then .failed .timestampOverflow
      else if (now % 2 ^ 64).toNat - epochMS ≤ st / 32 then
        if st % 32 + 1 ≥ 32 then .retry
        else .propose (k * 2 ^ 56 + st / 32 * 2 ^ 13 + n * 2 ^ 5 + (st % 32 + 1)) (st + 1)
      else .propose (k * 2 ^ 56 + ((now % 2 ^ 64).toNat - epochMS) * 2 ^ 13 + n * 2 ^ 5)
        (((now % 2 ^ 64).toNat - epochMS) * 32) := by
  have hc : countMax - 1 = 2 ^ 5 - 1 := by simp [countMax, countBits, Nat.shiftLeft_eq]
  have hcm : countMax = 32 := by simp [countMax, countBits, Nat.shiftLeft_eq]
  have htm : timeMax = 2 ^ 43 := by simp [timeMax, timeBits, Nat.shiftLeft_eq]
  simp only [attempt, hc, Nat.and_pow_two_sub_one_eq_mod]
  simp only [countBits, Nat.shiftRight_eq_div_pow, hcm, htm]
  generalize (now % 2 ^ 64).toNat = m
  have e5 : (2 : Nat) ^ 5 = 32 := by norm_num
  have e48 : (2 : Nat) ^ 48 = 281474976710656 := by norm_num
  have e43 : (2 : Nat) ^ 43 = 8796093022208 := by norm_num
  rw [e48] at hst
  simp only [e5]
  by_cases h1 : m < epochMS
  · simp only [h1, if_true]
  · simp only [h1, if_false]
    by_cases h2 : m - epochMS ≥ 2 ^ 43
    · simp only [h2, if_true]
    · simp only [h2, if_false]
      have h2' : m - epochMS < 8796093022208 := by rw [e43] at h2; omega
      by_cases h3 : m - epochMS < st / 32
      · have h3' : m - epochMS ≤ st / 32 := by omega
        simp only [h3, h3', if_true]
        by_cases h4 : st % 32 + 1 ≥ 32
        · simp only [h4, if_true]
        · simp only [h4, if_false]
          rw [assemble_eq k n (st / 32) (st % 32 + 1) hk hn (by rw [e43]; omega) (by omega)]
          have : st / 32 * 2 ^ 5 + (st % 32 + 1) = st + 1 := by rw [e5]; omega
          rw [this, e5]
      · simp only [h3, if_false]
        by_cases h5 : m - epochMS = st / 32
        · rw [if_pos h5, if_pos (Nat.le_of_eq h5)]
          by_cases h4 : st % 32 + 1 ≥ 32
          · simp only [h4, if_true, le_refl]
          · simp only [h4, if_false, le_refl, if_true]
            rw [assemble_eq k n (st / 32) (st % 32 + 1) hk hn (by rw [e43]; omega) (by omega)]
            have : st / 32 * 2 ^ 5 + (st % 32 + 1) = st + 1 := by rw [e5]; omega
            rw [this, e5]
        · have h5' : ¬ m - epochMS ≤ st / 32 := by omega
          rw [if_neg h5, if_neg h5']
          rw [assemble_eq k n (m - epochMS) 0 hk hn (by rw [e43]; exact h2') (by norm_num)]
          rw [Nat.add_zero, Nat.add_zero, e5]

/-- What a proposing pass computes, from the clock reading converted to `uint64`. -/
theorem attempt_detail (k n : Nat) (now : Int) (st id next : Nat) (hk : k < 256)
    (hn : n < 256) (hst : st < 2 ^ 48) (h : attempt k n now st = .propose id next) :
    epochMS ≤ (now % 2 ^ 64).toNat ∧ (now % 2 ^ 64).toNat - epochMS < 2 ^ 43
      ∧ ((now % 2 ^ 64).toNat - epochMS ≤ st / 32 → next = st + 1 ∧ st % 32 < 31)
      ∧ (st / 32 < (now % 2 ^ 64).toNat - epochMS
          → next = ((now % 2 ^ 64).toNat - epochMS) * 32)
      ∧ id = k * 2 ^ 56 + next / 32 * 2 ^ 13 + n * 2 ^ 5 + next % 32 := by
  have h3 := (attempt_propose k n now st id next hk hn hst h).2.2
  rw [attempt_eq k n now st hk hn hst] at h
  generalize (now % 2 ^ 64).toNat = m at h ⊢
  refine ⟨?_, ?_, ?_, ?_, h3⟩
  all_goals
    split_ifs at h with c1 c2 c3 c4
    all_goals first
      | exact Attempt.noConfusion h
      | (rw [Attempt.propose.injEq] at h
         obtain ⟨hid, hnext⟩ := h
         omega)

theorem packed_fields (k n s : Nat) (hk : k < 256) (hn : n < 256) (hs : s < 2 ^ 48) :
    ID.Kind (k * 2 ^ 56 + s / 32 * 2 ^ 13 + n * 2 ^ 5 + s % 32) = k
      ∧ ID.Node (k * 2 ^ 56 + s / 32 * 2 ^ 13 + n * 2 ^ 5 + s % 32) = n
      ∧ ID.time (k * 2 ^ 56 + s / 32 * 2 ^ 13 + n * 2 ^ 5 + s % 32) = s / 32
      ∧ ID.counter (k * 2 ^ 56 + s / 32 * 2 ^ 13 + n * 2 ^ 5 + s % 32) = s % 32
      ∧ ID.TimestampMS (k * 2 ^ 56 + s / 32 * 2 ^ 13 + n * 2 ^ 5 + s % 32)
          = s / 32 + epochMS := by
  have ht : s / 32 < 2 ^ 43 := by norm_num at hs ⊢; omega
  have hc : s % 32 < 32 := Nat.mod_lt _ (by norm_num)
  generalize s / 32 = t at ht ⊢
  generalize s % 32 = c at hc ⊢
  rw [Kind_eq, Node_eq, TimestampMS_eq, time_eq, counter_eq]
  norm_num [epochMS] at *
  omega

/-- C11: in every generator state reachable from the initial state 0, for every kind
`k`, node identity `n` and clock readings at which `New` returns an identifier
`id`: `id.Kind() = k`, `id.Node() = n` and `id.TimestampMS() ≥ epochMS`; the time
of the state and the time field of `id` are below `2^43`. -/
theorem issued_reads_back (st k n : Nat) (clock : List Int) (id : Nat) (hr : Reachable st)
    (hk : k < 256) (hn : n < 256) (h : (New k n clock st).1 = .returned id) :
    ID.Kind id = k ∧ ID.Node id = n ∧ ID.TimestampMS id ≥ epochMS
      ∧ st >>> countBits < 2 ^ 43 ∧ ID.time id < 2 ^ 43 := by
  have hst := reachable_lt st hr
  obtain ⟨h1, h2, _⟩ := New_state k n hk hn clock st hst
  obtain ⟨_, hid⟩ := h2 id h
  obtain ⟨f1, f2, f3, _, f5⟩ := packed_fields k n _ hk hn h1
  rw [← hid] at f1 f2 f3 f5
  refine ⟨f1, f2, by omega, ?_, ?_⟩
  · rw [countBits, Nat.shiftRight_eq_div_pow]
    norm_num at hst ⊢
    omega
  · rw [f3]
    norm_num at h1 ⊢
    omega

theorem issued_reads_back_witness :
    ID.Kind 648518346341351649 = 9 ∧ ID.Node 648518346341351649 = 7
      ∧ ID.TimestampMS 648518346341351649 ≥ epochMS
      ∧ 0 >>> countBits < 2 ^ 43 ∧ ID.time 648518346341351649 < 2 ^ 43 :=
  issued_reads_back 0 9 7 [1747267200000] 648518346341351649 .init (by norm_num)
    (by norm_num) (by decide)

theorem reachable_160 : Reachable 160 := by
  have h : (New 1 7 [1747267200005] 0).2 = 160 := by decide
  rw [← h]
  exact .call 1 7 [1747267200005] 0 (by norm_num) (by norm_num) .init

/-- C12 (as stated, refuted): state 160 (time 5, counter 0) is reached by a call at clock
reading `epochMS + 5`; a call at the earlier reading `epochMS + 1` then returns an
identifier whose `TimestampMS()` is `epochMS + 5`, not the clock reading. -/
theorem time_field_not_wall_clock :
    Reachable 160
      ∧ New 1 7 [1747267200001] 160 = (.returned 72057594037969121, 161)
      ∧ ID.TimestampMS 72057594037969121 = 1747267200005
      ∧ ID.TimestampMS 72057594037969121 ≠ 1747267200001 := by
  exact ⟨reachable_160, by decide, by decide, by decide⟩

/-- C12 (amended): in every reachable generator state, whose time is `lastMs`, a pass of
`New` at the clock reading `now` that issues an identifier gives it the time
field `max (now - epochMS) lastMs`; so `TimestampMS()` is `now` when the clock is
not behind the state, and `lastMs + epochMS` when it is. -/
theorem time_field_clamped (st k n : Nat) (now : Int) (id next : Nat) (hr : Reachable st)
    (hk : k < 256) (hn : n < 256) (hlo : -(2 : Int) ^ 63 ≤ now) (hhi : now < (2 : Int) ^ 63)
    (h : attempt k n now st = .propose id next) :
    (ID.time id : Int) = max (now - epochMS) ((st >>> countBits : Nat) : Int)
      ∧ (ID.TimestampMS id : Int) = max now (((st >>> countBits : Nat) : Int) + epochMS) := by
  have hst := reachable_lt st hr
  obtain ⟨h1, h2, h3, h4, _⟩ := attempt_detail k n now st id next hk hn hst h
  obtain ⟨hx, hid⟩ := (attempt_propose k n now st id next hk hn hst h).2
  obtain ⟨_, _, f3, _, f5⟩ := packed_fields k n next hk hn hx
  rw [← hid] at f3 f5
  rw [f3, f5, countBits, Nat.shiftRight_eq_div_pow]
  have hm : (((now % 2 ^ 64).toNat : Nat) : Int) = now % 2 ^ 64 :=
    Int.toNat_of_nonneg (Int.emod_nonneg _ (by norm_num))
  generalize (now % 2 ^ 64).toNat = m at h1 h2 h3 h4 hm
  have he : epochMS = 1747267200000 := rfl
  norm_num at hlo hhi hm h2 hst ⊢
  rw [he] at h1 h2 h3 h4 ⊢
  constructor <;> omega

theorem time_field_clamped_witness :
    (ID.time 72057594037969121 : Int)
        = max ((1747267200001 : Int) - epochMS) ((160 >>> countBits : Nat) : Int)
      ∧ (ID.TimestampMS 72057594037969121 : Int)
        = max (1747267200001 : Int) (((160 >>> countBits : Nat) : Int) + epochMS) :=
  time_field_clamped 160 1 7 1747267200001 72057594037969121 161
    reachable_160 (by norm_num) (by norm_num) (by norm_num) (by norm_num)
    (by decide)

/-! ## The per-millisecond budget -/

theorem increasing_bounded_length (l : List Nat) : ∀ a m : Nat, l.Pairwise (· < ·) →
    (∀ x ∈ l, a ≤ x ∧ x < a + m) → l.length ≤ m := by
  induction l with
  | nil => intro a m _ _; simp
  | cons x l ih =>
    intro a m hp hb
    rw [List.pairwise_cons] at hp
    have hx := hb x (List.mem_cons_self _ _)
    have hl := ih (x + 1) (a + m - (x + 1)) hp.2 (fun y hy => by
      have h1 := hp.1 y hy
      have h2 := hb y (List.mem_cons_of_mem _ hy)
      omega)
    simp only [List.length_cons]
    omega

theorem issuedBy_keys (n : Nat) (hn : n < 256) (calls : List (Nat × List Int)) :
    (∀ c ∈ calls, c.1 < 256) → ∀ st : Nat, st < 2 ^ 48 →
      (∀ id ∈ issuedBy n calls st,
          st < ID.time id * 32 + ID.counter id ∧ ID.counter id < 32)
      ∧ (issuedBy n calls st).Pairwise
          (fun a b => ID.time a * 32 + ID.counter a < ID.time b * 32 + ID.counter b) := by
  induction calls with
  | nil => intro _ st _; simp [issuedBy]
  | cons call calls ih =>
    intro hk st hst
    obtain ⟨k, clock⟩ := call
    have hk0 : k < 256 := hk (k, clock) (List.mem_cons_self _ _)
    have hk' : ∀ c ∈ calls, c.1 < 256 := fun c hc => hk c (List.mem_cons_of_mem _ hc)
    obtain ⟨hlt, hret, hnot⟩ := New_state k n hk0 hn clock st hst
    rw [issuedBy]
    rcases hN : New k n clock st with ⟨r, st'⟩
    rw [hN] at hlt hret hnot
    simp only at hlt hret hnot
    cases r with
    | returned id =>
      obtain ⟨hgt, hid⟩ := hret id rfl
      obtain ⟨ih1, ih2⟩ := ih hk' st' hlt
      obtain ⟨_, _, f3, f4, _⟩ := packed_fields k n st' hk0 hn hlt
      rw [← hid] at f3 f4
      simp only [List.mem_cons, forall_eq_or_imp, List.pairwise_cons]
      refine ⟨⟨?_, ?_⟩, ?_, ih2⟩
      · rw [f3, f4]; omega
      · intro x hx
        have := ih1 x hx
        omega
      · intro x hx
        have := ih1 x hx
        rw [f3, f4]
        omega
    | failed e =>
      have : st' = st := hnot (by simp)
      subst this
      exact ih hk' st' hst
    | waiting =>
      have : st' = st := hnot (by simp)
      subst this
      exact ih hk' st' hst

/-- C13: in any sequence of `New` calls on one generator state starting from the
initial state 0, with any kinds and any clock readings, every issued identifier
has a counter field of at most 31, no two issued identifiers share both the time
field and the counter field, and at most 32 issued identifiers carry any given
time-field value. -/
theorem per_millisecond_budget (n : Nat) (calls : List (Nat × List Int)) (hn : n < 256)
    (hk : ∀ c ∈ calls, c.1 < 256) :
    (∀ id ∈ issuedBy n calls 0, ID.counter id ≤ 31)
      ∧ (issuedBy n calls 0).Pairwise
          (fun a b => ¬ (ID.time a = ID.time b ∧ ID.counter a = ID.counter b))
      ∧ ∀ t, ((issuedBy n calls 0).filter (fun id => decide (ID.time id = t))).length ≤ 32 := by
  obtain ⟨h1, h2⟩ := issuedBy_keys n hn calls hk 0 (by norm_num)
  refine ⟨fun id hid => by have := (h1 id hid).2; omega, ?_, ?_⟩
  · refine h2.imp ?_
    intro a b hab hc
    rw [hc.1, hc.2] at hab
    exact Nat.lt_irrefl _ hab
  · intro t
    have hp := (h2.filter (fun id => decide (ID.time id = t)))
    have hm : (((issuedBy n calls 0).filter (fun id => decide (ID.time id = t))).map
        (fun id => ID.time id * 32 + ID.counter id)).Pairwise (· < ·) := by
      rw [List.pairwise_map]
      exact hp
    have := increasing_bounded_length _ (t * 32) 32 hm (by
      intro x hx
      obtain ⟨id, hid, rfl⟩ := List.mem_map.1 hx
      rw [List.mem_filter] at hid
      have ht : ID.time id = t := by simpa using hid.2
      have := (h1 id hid.1).2
      rw [ht]
      omega)
    simpa using this

theorem per_millisecond_budget_witness :
    (∀ id ∈ issuedBy 7 [(1, [1747267200000]), (2, [1747267200000]), (1, [1747267200003])] 0,
        ID.counter id ≤ 31)
      ∧ (issuedBy 7 [(1, [1747267200000]), (2, [1747267200000]), (1, [1747267200003])] 0
          ).Pairwise (fun a b => ¬ (ID.time a = ID.time b ∧ ID.counter a = ID.counter b))
      ∧ ∀ t, ((issuedBy 7 [(1, [1747267200000]), (2, [1747267200000]),
            (1, [1747267200003])] 0).filter (fun id => decide (ID.time id = t))).length ≤ 32 :=
  per_millisecond_budget 7 _ (by norm_num) (by decide)

/-! ## One pass of the loop against the specified step -/

theorem pass_clock (ms : Nat) (hms : ms < 2 ^ 43) :
    ((((ms : Int) + (epochMS : Int)) % 2 ^ 64).toNat) = ms + epochMS := by
  have he : epochMS = 1747267200000 := rfl
  rw [he]
  norm_num at hms ⊢
  omega

theorem state_word (t c : Nat) (hc : c < 32) :
    (t <<< 5) ||| c = t * 32 + c ∧ (t * 32 + c) / 32 = t ∧ (t * 32 + c) % 32 = c := by
  refine ⟨?_, by omega, by omega⟩
  rw [Nat.shiftLeft_eq, or_eq_add _ c 5 (Dvd.intro_left _ rfl) (by norm_num; omega)]
  norm_num

/-- C17: for every generator state `(lastMs, lastCounter)` with `lastMs < 2^43` and every
clock offset `ms < 2^43`, one pass of the loop of `New` (a) for `ms > lastMs`
issues an identifier with time field `ms` and counter 0; (b) for `ms ≤ lastMs`
and `lastCounter < 31` issues time field `lastMs` and counter `lastCounter + 1`,
the new state word being `(time << 5) | counter` of the identifier in both
cases; (c) for `ms ≤ lastMs` and `lastCounter = 31` issues nothing, returns no
error and leaves the state unchanged. -/
theorem attempt_refines_step (k n lastMs lastCounter ms : Nat) (hk : k < 256) (hn : n < 256)
    (hl : lastMs < 2 ^ 43) (hc : lastCounter < 32) (hms : ms < 2 ^ 43) :
    (lastMs < ms → ∃ id,
        attempt k n ((ms : Int) + epochMS) ((lastMs <<< 5) ||| lastCounter)
            = .propose id ((ID.time id <<< 5) ||| ID.counter id)
          ∧ ID.time id = ms ∧ ID.counter id = 0)
      ∧ (ms ≤ lastMs → lastCounter < 31 → ∃ id,
        attempt k n ((ms : Int) + epochMS) ((lastMs <<< 5) ||| lastCounter)
            = .propose id ((ID.time id <<< 5) ||| ID.counter id)
          ∧ ID.time id = lastMs ∧ ID.counter id = lastCounter + 1)
      ∧ (ms ≤ lastMs → lastCounter = 31 →
        attempt k n ((ms : Int) + epochMS) ((lastMs <<< 5) ||| lastCounter) = .retry
          ∧ New k n [(ms : Int) + epochMS] ((lastMs <<< 5) ||| lastCounter)
              = (.waiting, (lastMs <<< 5) ||| lastCounter)) := by
  obtain ⟨hw, hd, hm⟩ := state_word lastMs lastCounter hc
  have hst : lastMs * 32 + lastCounter < 2 ^ 48 := by norm_num at hl ⊢; omega
  have he : epochMS = 1747267200000 := rfl
  have hatt := attempt_eq k n ((ms : Int) + epochMS) (lastMs * 32 + lastCounter) hk hn hst
  rw [pass_clock ms hms, hd, hm] at hatt
  have h1 : ¬ ms + epochMS < epochMS := by omega
  have h2 : ¬ ms + epochMS - epochMS ≥ 2 ^ 43 := by rw [Nat.add_sub_cancel]; omega
  rw [if_neg h1, if_neg h2, Nat.add_sub_cancel] at hatt
  rw [hw]
  refine ⟨?_, ?_, ?_⟩
  · intro hlt
    rw [if_neg (by omega)] at hatt
    have hs : ms * 32 < 2 ^ 48 := by norm_num at hms ⊢; omega
    obtain ⟨_, _, f3, f4, _⟩ := packed_fields k n (ms * 32) hk hn hs
    have e1 : ms * 32 / 32 = ms := by omega
    have e2 : ms * 32 % 32 = 0 := by omega
    rw [e1, e2, Nat.add_zero] at f3 f4
    refine ⟨_, ?_, f3, f4⟩
    rw [hatt, f3, f4, (state_word ms 0 (by norm_num)).1, Nat.add_zero]
  · intro hle hcnt
    rw [if_pos hle, if_neg (by omega)] at hatt
    have hs : lastMs * 32 + (lastCounter + 1) < 2 ^ 48 := by norm_num at hl ⊢; omega
    obtain ⟨_, _, f3, f4, _⟩ := packed_fields k n (lastMs * 32 + (lastCounter + 1)) hk hn hs
    have e1 : (lastMs * 32 + (lastCounter + 1)) / 32 = lastMs := by omega
    have e2 : (lastMs * 32 + (lastCounter + 1)) % 32 = lastCounter + 1 := by omega
    rw [e1, e2] at f3 f4
    refine ⟨_, ?_, f3, f4⟩
    rw [hatt, f3, f4, (state_word lastMs (lastCounter + 1) (by omega)).1]
    rfl
  · intro hle hcnt
    rw [if_pos hle, if_pos (by omega)] at hatt
    refine ⟨hatt, ?_⟩
    rw [New, hatt, New]

theorem attempt_refines_step_witness :
    (5 < 9 → ∃ id,
        attempt 1 7 ((9 : Nat) + epochMS) ((5 <<< 5) ||| 30)
            = .propose id ((ID.time id <<< 5) ||| ID.counter id)
          ∧ ID.time id = 9 ∧ ID.counter id = 0)
      ∧ (9 ≤ 5 → 30 < 31 → ∃ id,
        attempt 1 7 ((9 : Nat) + epochMS) ((5 <<< 5) ||| 30)
            = .propose id ((ID.time id <<< 5) ||| ID.counter id)
          ∧ ID.time id = 5 ∧ ID.counter id = 30 + 1)
      ∧ (9 ≤ 5 → 30 = 31 →
        attempt 1 7 ((9 : Nat) + epochMS) ((5 <<< 5) ||| 30) = .retry
          ∧ New 1 7 [((9 : Nat) : Int) + epochMS] ((5 <<< 5) ||| 30)
              = (.waiting, (5 <<< 5) ||| 30)) :=
  attempt_refines_step 1 7 5 30 9 (by norm_num) (by norm_num) (by norm_num) (by norm_num)
    (by norm_num)

/-! ## Concurrent callers -/

theorem packed_lt (k n a b : Nat) (hab : a < b) :
    k * 2 ^ 56 + a / 32 * 2 ^ 13 + n * 2 ^ 5 + a % 32
      < k * 2 ^ 56 + b / 32 * 2 ^ 13 + n * 2 ^ 5 + b % 32 := by
  norm_num
  omega

theorem stepShared_inv (k n : Nat) (hk : k < 256) (hn : n < 256) (s : Shared) (e : Event)
    (h1 : s.state < 2 ^ 48)
    (h2 : ∀ p ∈ s.pending, p.2.cur < p.2.next ∧ p.2.next < 2 ^ 48
      ∧ p.2.id = k * 2 ^ 56 + p.2.next / 32 * 2 ^ 13 + n * 2 ^ 5 + p.2.next % 32)
    (h3 : ∀ id ∈ s.returned,
      id ≤ k * 2 ^ 56 + s.state / 32 * 2 ^ 13 + n * 2 ^ 5 + s.state % 32)
    (h4 : s.returned.Pairwise (· > ·)) :
    (stepShared k n s e).state < 2 ^ 48
      ∧ (∀ p ∈ (stepShared k n s e).pending, p.2.cur < p.2.next ∧ p.2.next < 2 ^ 48
        ∧ p.2.id = k * 2 ^ 56 + p.2.next / 32 * 2 ^ 13 + n * 2 ^ 5 + p.2.next % 32)
      ∧ (∀ id ∈ (stepShared k n s e).returned,
        id ≤ k * 2 ^ 56 + (stepShared k n s e).state / 32 * 2 ^ 13 + n * 2 ^ 5
          + (stepShared k n s e).state % 32)
      ∧ (stepShared k n s e).returned.Pairwise (· > ·) := by
  have hfilter : ∀ c : Nat, ∀ p ∈ s.pending.filter (fun e => decide (e.1 ≠ c)),
      p.2.cur < p.2.next ∧ p.2.next < 2 ^ 48
        ∧ p.2.id = k * 2 ^ 56 + p.2.next / 32 * 2 ^ 13 + n * 2 ^ 5 + p.2.next % 32 :=
    fun c p hp => h2 p (List.mem_filter.1 hp).1
  cases e with
  | load c now =>
    rw [stepShared]
    cases ha : attempt k n now s.state with
    | failed err => exact ⟨h1, hfilter c, h3, h4⟩
    | retry => exact ⟨h1, hfilter c, h3, h4⟩
    | propose id next =>
      obtain ⟨a1, a2, a3⟩ := attempt_propose k n now s.state id next hk hn h1 ha
      refine ⟨h1, ?_, h3, h4⟩
      intro p hp
      rcases List.mem_cons.1 hp with hp | hp
      · subst hp
        exact ⟨a1, a2, a3⟩
      · exact hfilter c p hp
  | cas c =>
    rw [stepShared]
    cases hf : s.pending.find? (fun e => decide (e.1 = c)) with
    | none => exact ⟨h1, h2, h3, h4⟩
    | some q =>
      obtain ⟨c', p⟩ := q
      obtain ⟨p1, p2, p3⟩ := h2 (c', p) (List.mem_of_find?_eq_some hf)
      simp only at p1 p2 p3
      by_cases hs : s.state = p.cur
      · simp only [hs, if_true]
        refine ⟨p2, hfilter c, ?_, ?_⟩
        · intro id hid
          rcases List.mem_cons.1 hid with hid | hid
          · rw [hid, p3]
          · have hle := h3 id hid
            have hlt := packed_lt k n s.state p.next (by rw [hs]; exact p1)
            omega
        · rw [List.pairwise_cons]
          refine ⟨?_, h4⟩
          intro id hid
          have hle := h3 id hid
          have hlt := packed_lt k n s.state p.next (by rw [hs]; exact p1)
          rw [p3]
          show id < _
          omega
      · simp only [hs, if_false]
        exact ⟨h1, hfilter c, h3, h4⟩

theorem foldl_stepShared_inv (k n : Nat) (hk : k < 256) (hn : n < 256) (events : List Event) :
    ∀ s : Shared, s.state < 2 ^ 48 →
      (∀ p ∈ s.pending, p.2.cur < p.2.next ∧ p.2.next < 2 ^ 48
        ∧ p.2.id = k * 2 ^ 56 + p.2.next / 32 * 2 ^ 13 + n * 2 ^ 5 + p.2.next % 32) →
      (∀ id ∈ s.returned,
        id ≤ k * 2 ^ 56 + s.state / 32 * 2 ^ 13 + n * 2 ^ 5 + s.state % 32) →
      s.returned.Pairwise (· > ·) →
      (events.foldl (stepShared k n) s).returned.Pairwise (· > ·) := by
  induction events with
  | nil => intro s _ _ _ h4; exact h4
  | cons e events ih =>
    intro s h1 h2 h3 h4
    obtain ⟨g1, g2, g3, g4⟩ := stepShared_inv k n hk hn s e h1 h2 h3 h4
    exact ih _ g1 g2 g3 g4

/-- C16: however the loads and compare-and-swaps of any number of concurrent callers of
`New` (same kind, fixed node identity) are interleaved on the shared state
word, no two calls return the same identifier. -/
theorem concurrent_unique (k n : Nat) (hk : k < 256) (hn : n < 256) (events : List Event) :
    (runShared k n events).returned.Nodup := by
  have h := foldl_stepShared_inv k n hk hn events ⟨0, [], []⟩ (by norm_num)
    (by intro p hp; simp at hp) (by intro id hid; simp at hid) List.Pairwise.nil
  exact h.imp (fun hab => Nat.ne_of_gt hab)

theorem concurrent_unique_witness :
    (runShared 1 7 [.load 0 1747267200000, .load 1 1747267200000, .cas 0, .cas 1,
      .load 1 1747267200000, .cas 1]).returned.Nodup :=
  concurrent_unique 1 7 (by norm_num) (by norm_num) _

/-! ## Error detection by the check digit -/

theorem parse_ascii_body (tbl : Nat → Nat) (b body : GoString) (c : Nat) (hb : IsAscii b)
    (hc : c < RuneSelf) (hsp : asciiSpace c = false)
    (hnorm : (b.dropWhile asciiSpace).filterMap normByte = body) (hlen : body.length = 13) :
    Parse tbl (b ++ [c]) =
      match decode tbl body with
      | .error e => .err e
      | .ok v => if upperByte c ≠ computeCheckUint64 v then .err .ErrorBadCheckDigit else .ok v := by
  have hb2 : IsAscii (b.dropWhile asciiSpace) :=
    fun y hy => hb y ((List.dropWhile_sublist _).subset hy)
  have hsasc : IsAscii (b.dropWhile asciiSpace ++ [c]) := by
    intro y hy
    rcases List.mem_append.1 hy with h | h
    · exact hb2 y h
    · simp at h; subst h; exact hc
  have hlen' : 13 ≤ (b.dropWhile asciiSpace).length := by
    have h1 := List.length_filterMap_le normByte (b.dropWhile asciiSpace)
    rw [hnorm, hlen] at h1
    exact h1
  unfold Parse
  simp only [TrimSpace_append_last b c hb hc hsp]
  generalize b.dropWhile asciiSpace = b2 at hb2 hsasc hlen' hnorm
  have hl : (b2 ++ [c]).length = b2.length + 1 := by simp
  have h14 : ¬ (b2 ++ [c]).length < 14 := by rw [hl]; omega
  have htake : (b2 ++ [c]).take ((b2 ++ [c]).length - 1) = b2 := by
    rw [hl, Nat.add_sub_cancel, List.take_left']
    rfl
  have hbody : normalize tbl b2 = body := by rw [normalize_ascii tbl b2 hb2, hnorm]
  have hup : (ToUpper tbl (b2 ++ [c])).get? ((b2 ++ [c]).length - 1) = some (upperByte c) := by
    rw [ToUpper_ascii tbl _ hsasc, hl, Nat.add_sub_cancel, List.map_append, List.get?_eq_getElem?,
      List.getElem?_append_right (by simp)]
    simp
  simp only [h14, if_false, htake, hbody, hlen, ne_eq, not_true_eq_false, hup]

theorem parse_syms (tbl : Nat → Nat) (body : GoString) (c : Nat)
    (hs : ∀ x ∈ body, x ∈ alphabet) (hlen : body.length = 13)
    (hc : c < RuneSelf) (hsp : asciiSpace c = false) :
    Parse tbl (body ++ [c]) =
      if base32Value body > maxUint64 then .err .ErrorIdOverflow
      else if upperByte c ≠ computeCheckUint64 (base32Value body) then .err .ErrorBadCheckDigit
      else .ok (base32Value body) := by
  have hasc : IsAscii body := fun x hx => (indexId_of_mem x (hs x hx)).2.2.2
  rw [parse_ascii_body tbl body body c hasc hc hsp (norm_syms body hs) hlen,
    decode_alphabet tbl body hs]
  split_ifs <;> simp_all

theorem foldl_value_acc (l : GoString) : ∀ acc : Nat,
    l.foldl (fun acc c => acc * 32 + symbolValue c) acc
      = acc * 32 ^ l.length + l.foldl (fun acc c => acc * 32 + symbolValue c) 0 := by
  induction l with
  | nil => intro acc; simp
  | cons x l ih =>
    intro acc
    simp only [List.foldl_cons, List.length_cons]
    rw [ih (acc * 32 + symbolValue x), ih (0 * 32 + symbolValue x)]
    ring

theorem base32Value_split (pre post : GoString) (x : Nat) :
    base32Value (pre ++ x :: post)
      = (base32Value pre * 32 + symbolValue x) * 32 ^ post.length + base32Value post := by
  unfold base32Value
  rw [List.foldl_append, List.foldl_cons, foldl_value_acc post]

theorem base32Value_digits (id : Nat) (h : id < 2 ^ 64) : base32Value (digits 13 id) = id := by
  unfold base32Value
  rw [foldl_digits, Nat.mod_eq_of_lt (by norm_num; omega)]
  simp

set_option maxRecDepth 100000 in
theorem checkAlphabet_inj : ∀ a, a < 37 → ∀ b, b < 37 →
    checkAlphabet.getD a 0 = checkAlphabet.getD b 0 → a = b := by
  decide

theorem check_ne (v w : Nat) (h : v % 37 ≠ w % 37) :
    computeCheckUint64 v ≠ computeCheckUint64 w := fun he =>
  h (checkAlphabet_inj _ (Nat.mod_lt _ (by norm_num)) _ (Nat.mod_lt _ (by norm_num)) he)

theorem coprime_37_pow (m : Nat) : Nat.gcd 37 (32 ^ m) = 1 :=
  Nat.Coprime.pow_right m (by decide)

theorem symbolValue_lt (c : Nat) (h : c ∈ alphabet) : symbolValue c < 32 :=
  (indexId_of_mem c h).2.1

theorem symbolValue_inj (c d : Nat) (hc : c ∈ alphabet) (hd : d ∈ alphabet)
    (h : symbolValue c = symbolValue d) : c = d :=
  (List.indexOf_inj hc hd).1 h

theorem substitution_mod (a p r sc sx : Nat) (hp : Nat.gcd 37 p = 1) (hc : sc < 32)
    (hx : sx < 32) (hne : sc ≠ sx) :
    ((a * 32 + sc) * p + r) % 37 ≠ ((a * 32 + sx) * p + r) % 37 := by
  intro h
  have h1 : (a * 32 + sc) * p + r ≡ (a * 32 + sx) * p + r [MOD 37] := h
  have h2 := Nat.ModEq.cancel_right_of_coprime hp (Nat.ModEq.add_right_cancel' r h1)
  have h3 : sc ≡ sx [MOD 37] := Nat.ModEq.add_left_cancel' (a * 32) h2
  have h4 : sc % 37 = sx % 37 := h3
  omega

theorem transposition_mod (a p r sx sy : Nat) (hp : Nat.gcd 37 p = 1) (hx : sx < 32)
    (hy : sy < 32) (hne : sx ≠ sy) :
    (((a * 32 + sy) * 32 + sx) * p + r) % 37 ≠ (((a * 32 + sx) * 32 + sy) * p + r) % 37 := by
  intro h
  have h1 : ((a * 32 + sy) * 32 + sx) * p + r ≡ ((a * 32 + sx) * 32 + sy) * p + r [MOD 37] := h
  have h2 := Nat.ModEq.cancel_right_of_coprime hp (Nat.ModEq.add_right_cancel' r h1)
  have h4 : ((a * 32 + sy) * 32 + sx) % 37 = ((a * 32 + sx) * 32 + sy) % 37 := h2
  omega

theorem string_split (id : Nat) (body : GoString) (chk : Nat) (h : id < 2 ^ 64)
    (hs : ID.String id = some (body ++ [chk])) :
    body = digits 13 id ∧ chk = computeCheckUint64 id := by
  rw [String_eq id h] at hs
  have h1 := List.append_inj' (Option.some.inj hs) rfl
  exact ⟨h1.1.symm, by simpa using h1.2.symm⟩

theorem altered_body_rejected (tbl : Nat → Nat) (id : Nat) (body : GoString)
    (hs : ∀ x ∈ body, x ∈ alphabet) (hlen : body.length = 13)
    (hmod : base32Value body % 37 ≠ id % 37) :
    Parse tbl (body ++ [computeCheckUint64 id]) =
      if base32Value body > 2 ^ 64 - 1 then .err .ErrorIdOverflow
      else .err .ErrorBadCheckDigit := by
  obtain ⟨c1, c2, c3⟩ := check_facts id
  rw [parse_syms tbl body _ hs hlen c1 c2, c3]
  have hne : computeCheckUint64 id ≠ computeCheckUint64 (base32Value body) :=
    check_ne _ _ (Ne.symm hmod)
  rw [if_pos hne]
  rfl

/-- C18: for every identifier `id`, a string obtained from `id.String()` by replacing one
of its first 13 characters with a different symbol of the 32-symbol alphabet, or
by swapping two adjacent, different characters among its first 13, is rejected
by `Parse`: with `ErrorIdOverflow` when the altered body exceeds `2^64-1`, with
`ErrorBadCheckDigit` otherwise. -/
theorem check_digit_detects (tbl : Nat → Nat) (id : Nat) (h : id < 2 ^ 64) :
    (∀ (pre post : GoString) (x chk c : Nat),
        ID.String id = some (pre ++ x :: post ++ [chk]) → c ∈ alphabet → c ≠ x →
        Parse tbl (pre ++ c :: post ++ [chk]) =
          if base32Value (pre ++ c :: post) > 2 ^ 64 - 1 then .err .ErrorIdOverflow
          else .err .ErrorBadCheckDigit)
      ∧ (∀ (pre post : GoString) (x y chk : Nat),
        ID.String id = some (pre ++ x :: y :: post ++ [chk]) → x ≠ y →
        Parse tbl (pre ++ y :: x :: post ++ [chk]) =
          if base32Value (pre ++ y :: x :: post) > 2 ^ 64 - 1 then .err .ErrorIdOverflow
          else .err .ErrorBadCheckDigit) := by
  refine ⟨?_, ?_⟩
  · intro pre post x chk c hs hc hne
    obtain ⟨hbody, hchk⟩ := string_split id _ chk h hs
    have hmem : ∀ z ∈ pre ++ x :: post, z ∈ alphabet := by
      rw [hbody]; exact digits_mem_alphabet 13 id
    have hlen : (pre ++ x :: post).length = 13 := by rw [hbody, digits_length]
    have hx : x ∈ alphabet := hmem x (by simp)
    have hval : base32Value (pre ++ x :: post) = id := by
      rw [hbody, base32Value_digits id h]
    subst hchk
    apply altered_body_rejected
    · intro z hz
      rcases List.mem_append.1 hz with hz | hz
      · exact hmem z (List.mem_append_left _ hz)
      · rcases List.mem_cons.1 hz with hz | hz
        · rw [hz]; exact hc
        · exact hmem z (List.mem_append_right _ (List.mem_cons_of_mem _ hz))
    · simpa using hlen
    · rw [← hval, base32Value_split, base32Value_split]
      exact substitution_mod _ _ _ _ _ (coprime_37_pow _) (symbolValue_lt c hc)
        (symbolValue_lt x hx) (fun he => hne (symbolValue_inj c x hc hx he))
  · intro pre post x y chk hs hne
    obtain ⟨hbody, hchk⟩ := string_split id _ chk h hs
    have hmem : ∀ z ∈ pre ++ x :: y :: post, z ∈ alphabet := by
      rw [hbody]; exact digits_mem_alphabet 13 id
    have hlen : (pre ++ x :: y :: post).length = 13 := by rw [hbody, digits_length]
    have hx : x ∈ alphabet := hmem x (by simp)
    have hy : y ∈ alphabet := hmem y (by simp)
    have hval : base32Value (pre ++ x :: y :: post) = id := by
      rw [hbody, base32Value_digits id h]
    subst hchk
    apply altered_body_rejected
    · intro z hz
      apply hmem
      simp only [List.mem_append, List.mem_cons] at hz ⊢
      tauto
    · simpa using hlen
    · rw [← hval]
      have e1 : pre ++ y :: x :: post = (pre ++ [y]) ++ x :: post := by simp
      have e2 : pre ++ x :: y :: post = (pre ++ [x]) ++ y :: post := by simp
      have e3 : ∀ z : Nat, base32Value (pre ++ [z]) = base32Value pre * 32 + symbolValue z := by
        intro z
        rw [base32Value_split]
        simp [base32Value]
      rw [e1, e2, base32Value_split (pre ++ [y]), base32Value_split (pre ++ [x]), e3, e3]
      exact transposition_mod _ _ _ _ _ (coprime_37_pow _) (symbolValue_lt x hx)
        (symbolValue_lt y hy) (fun he => hne (symbolValue_inj x y hx hy he))

theorem check_digit_detects_witness :
    Parse (fun r => r) (lit "00AY" ++ ('X').toNat :: lit "AHEPPJW7" ++ [('U').toNat])
        = (if base32Value (lit "00AY" ++ ('X').toNat :: lit "AHEPPJW7") > 2 ^ 64 - 1
            then .err .ErrorIdOverflow else .err .ErrorBadCheckDigit)
      ∧ Parse (fun r => r)
          (lit "00AY" ++ ('A').toNat :: ('W').toNat :: lit "HEPPJW7" ++ [('U').toNat])
        = (if base32Value (lit "00AY" ++ ('A').toNat :: ('W').toNat :: lit "HEPPJW7")
              > 2 ^ 64 - 1
            then .err .ErrorIdOverflow else .err .ErrorBadCheckDigit) :=
  ⟨(check_digit_detects (fun r => r) 12345678901234567 (by norm_num)).1
      (lit "00AY") (lit "AHEPPJW7") ('W').toNat ('U').toNat ('X').toNat
      (by decide) (by decide) (by decide),
    (check_digit_detects (fun r => r) 12345678901234567 (by norm_num)).2
      (lit "00AY") (lit "HEPPJW7") ('W').toNat ('A').toNat ('U').toNat
      (by decide) (by decide)⟩

/-! ## Order of the canonical forms -/

set_option maxRecDepth 100000 in
theorem alphabet_mono : ∀ d, d < 32 → ∀ e, e < 32 →
    (alphabet.getD d 0 < alphabet.getD e 0 ↔ d < e) := by
  decide

theorem strLess_digits (k : Nat) : ∀ (a b : Nat) (ta tb : GoString), a < 32 ^ k → b < 32 ^ k →
    strLess (digits k a ++ ta) (digits k b ++ tb)
      = if a < b then true else if b < a then false else strLess ta tb := by
  induction k with
  | zero =>
    intro a b ta tb ha hb
    have ha0 : a = 0 := by simpa using ha
    have hb0 : b = 0 := by simpa using hb
    subst ha0 hb0
    simp [digits]
  | succ k ih =>
    intro a b ta tb ha hb
    have ha' : a / 32 < 32 ^ k := by
      rw [Nat.div_lt_iff_lt_mul (by norm_num)]; rw [pow_succ] at ha; exact ha
    have hb' : b / 32 < 32 ^ k := by
      rw [Nat.div_lt_iff_lt_mul (by norm_num)]; rw [pow_succ] at hb; exact hb
    rw [digits, digits, List.append_assoc, List.append_assoc, ih _ _ _ _ ha' hb']
    simp only [List.singleton_append, strLess]
    have hm := alphabet_mono (a % 32) (Nat.mod_lt _ (by norm_num)) (b % 32)
      (Nat.mod_lt _ (by norm_num))
    have hm' := alphabet_mono (b % 32) (Nat.mod_lt _ (by norm_num)) (a % 32)
      (Nat.mod_lt _ (by norm_num))
    simp only [hm, hm']
    split_ifs <;> first | rfl | omega

/-- C20: for all 64-bit identifiers `a` and `b`, `a < b` as unsigned integers if and only
if `a.String() < b.String()` in byte-wise lexicographic order. -/
theorem string_order (a b : Nat) (ha : a < 2 ^ 64) (hb : b < 2 ^ 64) :
    ∃ sa sb, ID.String a = some sa ∧ ID.String b = some sb
      ∧ (a < b ↔ strLess sa sb = true) := by
  refine ⟨_, _, String_eq a ha, String_eq b hb, ?_⟩
  rw [strLess_digits 13 a b _ _ (by norm_num; omega) (by norm_num; omega)]
  by_cases h1 : a < b
  · simp [h1]
  · by_cases h2 : b < a
    · simp [h1, h2]
    · have : a = b := by omega
      subst this
      simp [strLess]

theorem string_order_witness :
    ∃ sa sb, ID.String 31 = some sa ∧ ID.String 32 = some sb
      ∧ (31 < 32 ↔ strLess sa sb = true) :=
  string_order 31 32 (by norm_num) (by norm_num)

/-! ## What `Parse` accepts -/

theorem trimSpaceEnd_mem (r : GoString) (hr : IsAscii r) :
    ∀ x ∈ trimSpaceEnd r, x ∈ r := by
  induction r with
  | nil => intro x hx; simp [trimSpaceEnd] at hx
  | cons c rev ih =>
    intro x hx
    have hc : ¬ c ≥ RuneSelf := by have := hr c (List.mem_cons_self _ _); omega
    rw [trimSpaceEnd] at hx
    simp only [hc, if_false] at hx
    by_cases hs : asciiSpace c = true
    · simp only [hs, if_true] at hx
      exact List.mem_cons_of_mem _ (ih (fun y hy => hr y (List.mem_cons_of_mem _ hy)) x hx)
    · simp only [hs, if_false] at hx
      exact List.mem_reverse.1 hx

theorem TrimSpace_mem (s : GoString) (hs : IsAscii s) : ∀ x ∈ TrimSpace s, x ∈ s := by
  induction s with
  | nil => intro x hx; simp [TrimSpace] at hx
  | cons c rest ih =>
    intro x hx
    have hc : ¬ c ≥ RuneSelf := by have := hs c (List.mem_cons_self _ _); omega
    rw [TrimSpace] at hx
    simp only [hc, if_false] at hx
    by_cases hsp : asciiSpace c = true
    · simp only [hsp, if_true] at hx
      exact List.mem_cons_of_mem _ (ih (fun y hy => hs y (List.mem_cons_of_mem _ hy)) x hx)
    · simp only [hsp, if_false] at hx
      have hrev : IsAscii (c :: rest).reverse := fun y hy => hs y (List.mem_reverse.1 hy)
      exact List.mem_reverse.1 (trimSpaceEnd_mem _ hrev x hx)

theorem parse_ascii_unfold (tbl : Nat → Nat) (s : GoString) (hs : IsAscii s) :
    Parse tbl s =
      if (TrimSpace s).length < 14 then .err .ErrorIdBadLength
      else if ((TrimSpace s).dropLast.filterMap normByte).length ≠ 13 then
        .err .ErrorIdBadLength
      else
        match decode tbl ((TrimSpace s).dropLast.filterMap normByte) with
        | .error e => .err e
        | .ok v =>
          if ((TrimSpace s).getLast?.map upperByte) ≠ some (computeCheckUint64 v) then
            .err .ErrorBadCheckDigit
          else .ok v := by
  have ht : IsAscii (TrimSpace s) := fun x hx => hs x (TrimSpace_mem s hs x hx)
  unfold Parse
  simp only
  generalize TrimSpace s = t at ht
  by_cases h14 : t.length < 14
  · simp only [h14, if_true]
  · simp only [h14, if_false]
    have htake : t.take (t.length - 1) = t.dropLast := (List.dropLast_eq_take t).symm
    have hd : IsAscii t.dropLast := fun x hx => ht x ((List.dropLast_sublist t).subset hx)
    rw [htake, normalize_ascii tbl _ hd]
    by_cases h13 : (t.dropLast.filterMap normByte).length ≠ 13
    · rw [if_pos h13, if_pos h13]
    · rw [if_neg h13, if_neg h13]
      have hne : t ≠ [] := by intro h; subst h; simp at h14
      have hlast : t.getLast? = t[t.length - 1]? := by
        rw [List.getLast?_eq_getElem?]
      have hup : (ToUpper tbl t).get? (t.length - 1) = t.getLast?.map upperByte := by
        rw [ToUpper_ascii tbl t ht, List.get?_eq_getElem?, List.getElem?_map, hlast]
      rw [hup]
      have hl : t.length - 1 < t.length := by
        have := List.length_pos.2 hne; omega
      rw [hlast, List.getElem?_eq_getElem hl]
      cases decode tbl (t.dropLast.filterMap normByte)
      · rfl
      · simp

theorem decodeLoop_ok (l : List Nat) : ∀ acc v : Nat, decodeLoop acc l = .ok v →
    ∀ r ∈ l, 0 ≤ indexId r := by
  induction l with
  | nil => intro _ _ _ r hr; simp at hr
  | cons x l ih =>
    intro acc v h r hr
    rw [decodeLoop] at h
    by_cases h1 : indexId x < 0
    · simp [h1] at h
    · simp only [h1, if_false] at h
      by_cases h2 : acc > (maxUint64 - (indexId x).toNat) / 32
      · simp [h2] at h
      · simp only [h2, if_false] at h
        rcases List.mem_cons.1 hr with hr | hr
        · subst hr; omega
        · exact ih _ v h r hr

set_option maxRecDepth 100000 in
theorem normByte_facts : ∀ y, y < 128 →
    (normByte y).all (fun x => decide (normByte x = some x ∧ x < 128
      ∧ (0 ≤ indexId x → x ∈ alphabet))) = true := by
  decide

theorem normalized_facts (b : GoString) (hb : IsAscii b) :
    ∀ x ∈ b.filterMap normByte, normByte x = some x ∧ x < RuneSelf
      ∧ (0 ≤ indexId x → x ∈ alphabet) := by
  intro x hx
  obtain ⟨y, hy, hyx⟩ := List.mem_filterMap.1 hx
  have h := normByte_facts y (hb y hy)
  rw [hyx] at h
  have h' := of_decide_eq_true h
  exact ⟨h'.1, h'.2.1, h'.2.2⟩

theorem filterMap_normByte_id (l : GoString) (h : ∀ x ∈ l, normByte x = some x) :
    l.filterMap normByte = l := by
  induction l with
  | nil => rfl
  | cons x l ih =>
    rw [List.filterMap_cons, h x (List.mem_cons_self _ _),
      ih (fun y hy => h y (List.mem_cons_of_mem _ hy))]

theorem decode_ok_syms (tbl : Nat → Nat) (b : GoString) (v : Nat) (hb : IsAscii b)
    (h : decode tbl (b.filterMap normByte) = .ok v) :
    (∀ x ∈ b.filterMap normByte, x ∈ alphabet) ∧ base32Value (b.filterMap normByte) = v
      ∧ v < 2 ^ 64 := by
  have hf := normalized_facts b hb
  have hasc : IsAscii (b.filterMap normByte) := fun x hx => (hf x hx).2.1
  have hsyms : ∀ x ∈ b.filterMap normByte, x ∈ alphabet := by
    have h' := h
    unfold decode at h'
    rw [normalize_ascii tbl _ hasc, filterMap_normByte_id _ (fun x hx => (hf x hx).1),
      runes_ascii _ hasc] at h'
    intro x hx
    exact (hf x hx).2.2 (decodeLoop_ok _ 0 v h' x hx)
  rw [decode_alphabet tbl _ hsyms] at h
  have hmax : maxUint64 = 18446744073709551615 := by norm_num [maxUint64]
  by_cases hov : base32Value (b.filterMap normByte) > maxUint64
  · simp [hov] at h
  · simp only [hov, if_false] at h
    have hv : base32Value (b.filterMap normByte) = v := by injection h
    refine ⟨hsyms, hv, ?_⟩
    rw [hmax] at hov
    norm_num
    omega

theorem alphabet_getD_symbolValue (x : Nat) (h : x ∈ alphabet) :
    alphabet.getD (symbolValue x) 0 = x := by
  obtain ⟨d, hd, rfl⟩ := mem_alphabet x h
  rw [symbolValue_getD d hd]

theorem digits_of_syms (l : GoString) (h : ∀ x ∈ l, x ∈ alphabet) :
    digits l.length (base32Value l) = l := by
  induction l using List.reverseRecOn with
  | nil => rfl
  | append_singleton l x ih =>
    have hx : x ∈ alphabet := h x (by simp)
    have hl : ∀ y ∈ l, y ∈ alphabet := fun y hy => h y (List.mem_append_left _ hy)
    have hv : base32Value (l ++ [x]) = base32Value l * 32 + symbolValue x := by
      rw [base32Value_split]
      simp [base32Value]
    have hlt := symbolValue_lt x hx
    rw [hv, List.length_append, List.length_singleton, digits]
    have e1 : (base32Value l * 32 + symbolValue x) / 32 = base32Value l := by omega
    have e2 : (base32Value l * 32 + symbolValue x) % 32 = symbolValue x := by omega
    rw [e1, e2, ih hl, alphabet_getD_symbolValue x hx]

theorem parse_ok_string (tbl : Nat → Nat) (s : GoString) (id : Nat) (hs : IsAscii s)
    (hp : Parse tbl s = .ok id) : id < 2 ^ 64 ∧ ID.String id = some (normalForm s) := by
  have ht : IsAscii (TrimSpace s) := fun x hx => hs x (TrimSpace_mem s hs x hx)
  rw [parse_ascii_unfold tbl s hs] at hp
  unfold normalForm
  generalize TrimSpace s = t at ht hp
  have hd : IsAscii t.dropLast := fun x hx => ht x ((List.dropLast_sublist t).subset hx)
  by_cases h14 : t.length < 14
  · simp [h14] at hp
  · simp only [h14, if_false] at hp
    by_cases h13 : (t.dropLast.filterMap normByte).length ≠ 13
    · simp [h13] at hp
    · rw [if_neg h13] at hp
      have h13' : (t.dropLast.filterMap normByte).length = 13 := by
        simpa using h13
      cases hdec : decode tbl (t.dropLast.filterMap normByte) with
      | error e => simp [hdec] at hp
      | ok v =>
        rw [hdec] at hp
        simp only at hp
        by_cases hchk : (t.getLast?.map upperByte) ≠ some (computeCheckUint64 v)
        · simp [hchk] at hp
        · rw [if_neg hchk] at hp
          have hv : v = id := by injection hp
          subst hv
          have hchk' : t.getLast?.map upperByte = some (computeCheckUint64 v) := by
            simpa using hchk
          obtain ⟨hsyms, hval, hlt⟩ := decode_ok_syms tbl t.dropLast v hd hdec
          refine ⟨hlt, ?_⟩
          rw [String_eq v hlt]
          have hbody := digits_of_syms _ hsyms
          rw [h13', hval] at hbody
          rw [hbody]
          congr 2
          cases hl : t.getLast? with
          | none => simp [hl] at hchk'
          | some c =>
            rw [hl] at hchk'
            simp only [Option.map_some', Option.some.injEq] at hchk'
            simp [hchk']

/-- C19: for every ASCII input `s` on which `Parse` succeeds with identifier `id`,
`id.String()` is the normalized body of `s` (trimmed, all but the last character,
upper-cased, separators removed, `O→0`, `I,L→1`) followed by the upper-cased last
character of `s`; hence two accepted inputs yield the same identifier exactly
when their normalized forms are equal. -/
theorem parse_accepts_canonical (tbl : Nat → Nat) (s : GoString) (id : Nat) (hs : IsAscii s)
    (hp : Parse tbl s = .ok id) :
    ID.String id = some (normalForm s)
      ∧ ∀ (s' : GoString) (id' : Nat), IsAscii s' → Parse tbl s' = .ok id' →
          (id = id' ↔ normalForm s = normalForm s') := by
  obtain ⟨hlt, hstr⟩ := parse_ok_string tbl s id hs hp
  refine ⟨hstr, ?_⟩
  intro s' id' hs' hp'
  obtain ⟨hlt', hstr'⟩ := parse_ok_string tbl s' id' hs' hp'
  constructor
  · intro h
    subst h
    rw [hstr] at hstr'
    exact Option.some.inj hstr'
  · intro h
    rw [h, ← hstr', String_eq id hlt, String_eq id' hlt'] at hstr
    have h1 := List.append_inj' (Option.some.inj hstr) rfl
    have h2 := congrArg base32Value h1.1
    rw [base32Value_digits id hlt, base32Value_digits id' hlt'] at h2
    exact h2

set_option maxRecDepth 100000 in
theorem parse_accepts_canonical_witness :
    ID.String 12345678901234567 = some (normalForm (lit " 00-ay_WAHE.pp jw7 u "))
      ∧ ∀ (s' : GoString) (id' : Nat), IsAscii s' → Parse (fun r => r) s' = .ok id' →
          (12345678901234567 = id' ↔ normalForm (lit " 00-ay_WAHE.pp jw7 u ") = normalForm s') :=
  parse_accepts_canonical (fun r => r) (lit " 00-ay_WAHE.pp jw7 u ") 12345678901234567
    (by unfold IsAscii; decide) (by decide)

/-! ## The node override against the decimal reading of the string -/

theorem decimalRev_reverse (l : GoString) :
    decimalRev l.reverse =
      if l ≠ [] ∧ l.all (fun ch => decide ('0'.toNat ≤ ch ∧ ch ≤ '9'.toNat)) = true then
        some (l.foldl (fun n ch => n * 10 + (ch - '0'.toNat)) 0)
      else none := by
  induction l using List.reverseRecOn with
  | nil => simp [decimalRev]
  | append_singleton l x ih =>
    rw [List.reverse_append, List.reverse_singleton, List.singleton_append, List.foldl_append,
      List.all_append]
    simp only [List.foldl_cons, List.foldl_nil, List.all_cons, List.all_nil, Bool.and_true,
      ne_eq, List.append_eq_nil, List.cons_ne_self, and_false, not_false_eq_true, true_and,
      Bool.and_eq_true, decide_eq_true_eq]
    cases hl : l.reverse with
    | nil =>
      have hnil : l = [] := by simpa using hl
      subst hnil
      simp only [decimalRev, decimalDigit, List.all_nil, List.foldl_nil, true_and]
      by_cases hx : 48 ≤ x ∧ x ≤ 57
      · simp [hx]
      · simp [hx]
    | cons y r =>
      have hne : l ≠ [] := by intro h; subst h; simp at hl
      rw [hl] at ih
      rw [decimalRev, ih]
      · simp only [decimalDigit]
        cases hb : l.all (fun ch => decide ('0'.toNat ≤ ch ∧ ch ≤ '9'.toNat)) <;>
          by_cases hx : 48 ≤ x ∧ x ≤ 57 <;>
          simp [hne, hx, Nat.mul_comm]
      · intro h
        exact List.cons_ne_nil _ _ h

theorem atoi_body (neg : Bool) (body : GoString) :
    (if body = [] then none
      else if body.all (fun ch => decide ('0'.toNat ≤ ch ∧ ch ≤ '9'.toNat)) = true then
        if neg = false ∧ body.foldl (fun n ch => n * 10 + (ch - '0'.toNat)) 0 ≥ 2 ^ 63 then none
        else if neg = true ∧ body.foldl (fun n ch => n * 10 + (ch - '0'.toNat)) 0 > 2 ^ 63
          then none
        else some (if neg = true
          then -((body.foldl (fun n ch => n * 10 + (ch - '0'.toNat)) 0 : Nat) : Int)
          else ((body.foldl (fun n ch => n * 10 + (ch - '0'.toNat)) 0 : Nat) : Int))
      else none : Option Int)
      = match (decimalRev body.reverse).map
            (fun (v : Nat) => if neg = true then -(v : Int) else (v : Int)) with
        | some v => if -(2 : Int) ^ 63 ≤ v ∧ v < (2 : Int) ^ 63 then some v else none
        | none => none := by
  rw [decimalRev_reverse]
  by_cases hnil : body = []
  · have hnb : ¬ (body ≠ [] ∧
        body.all (fun ch => decide ('0'.toNat ≤ ch ∧ ch ≤ '9'.toNat)) = true) :=
      fun h => h.1 hnil
    rw [if_pos hnil, if_neg hnb]
    rfl
  · by_cases hall : body.all (fun ch => decide ('0'.toNat ≤ ch ∧ ch ≤ '9'.toNat)) = true
    · have hboth : body ≠ [] ∧
          body.all (fun ch => decide ('0'.toNat ≤ ch ∧ ch ≤ '9'.toNat)) = true := ⟨hnil, hall⟩
      rw [if_neg hnil, if_pos hall, if_pos hboth]
      generalize body.foldl (fun n ch => n * 10 + (ch - '0'.toNat)) 0 = un
      have e1 : (2 : Nat) ^ 63 = 9223372036854775808 := by norm_num
      have e2 : (2 : Int) ^ 63 = 9223372036854775808 := by norm_num
      rw [e1, e2]
      cases neg
      · simp only [Bool.false_eq_true, if_false, true_and, false_and, Option.map_some']
        split_ifs <;> first | rfl | (exfalso; omega)
      · simp only [Bool.true_eq_false, if_true, true_and, false_and, if_false, Option.map_some']
        split_ifs <;> first | rfl | (exfalso; omega)
    · have hnb : ¬ (body ≠ [] ∧
          body.all (fun ch => decide ('0'.toNat ≤ ch ∧ ch ≤ '9'.toNat)) = true) :=
        fun h => hall h.2
      rw [if_neg hnil, if_neg hall, if_neg hnb]
      rfl

theorem atoi_sign (s : GoString) :
    (decimalRev
        (if s.head? = some '-'.toNat ∨ s.head? = some '+'.toNat then s.tail else s).reverse).map
        (fun (v : Nat) => if decide (s.head? = some '-'.toNat) = true then -(v : Int) else (v : Int))
      = decimalInteger s := by
  cases s with
  | nil => simp [decimalInteger, decimalRev]
  | cons c rest =>
    by_cases hm : c = 45
    · subst hm
      simp [decimalInteger]
    · by_cases hp : c = 43
      · subst hp
        simp [decimalInteger]
      · simp [decimalInteger, hm, hp]

/-- The model of `strconv.Atoi` returns the base-10 integer the string stands for when
that integer fits `int`, and an error otherwise. -/
theorem Atoi_decimalInteger (s : GoString) :
    Atoi s =
      match decimalInteger s with
      | some v => if -(2 : Int) ^ 63 ≤ v ∧ v < (2 : Int) ^ 63 then some v else none
      | none => none := by
  rw [← atoi_sign s, ← atoi_body]
  rfl

theorem fnv1a8_fnv1a32 (data : GoString) : fnv1a8 data = fnv1a32 data % 2 ^ 8 := by
  have h : ∀ (l : GoString) (hash : Nat),
      l.foldl (fun hash b => ((hash ^^^ b) * 16777619) % 2 ^ 32) hash = fnv1aFrom hash l := by
    intro l
    induction l with
    | nil => intro hash; rfl
    | cons b l ih => intro hash; rw [List.foldl_cons, fnv1aFrom, ih]
  rw [fnv1a8, fnv1a32, h]

/-- C15: for every override string that stands for a base-10 integer `v` with
`0 ≤ v ≤ 255`, `InitNodeID` sets the node identity to `v`; for every other non-empty
override string (no integer, or an integer outside `[0,255]`) it sets it to
`fnv1a8` of the string's bytes, the low 8 bits of its 32-bit FNV-1a hash. -/
theorem node_override (env : GoString) (derived : Nat) :
    (∀ v : Int, decimalInteger env = some v → 0 ≤ v → v ≤ 255 →
        (InitNodeID env derived : Int) = v)
      ∧ (env ≠ [] → (∀ v : Int, decimalInteger env = some v → ¬ (0 ≤ v ∧ v ≤ 255)) →
          InitNodeID env derived = fnv1a8 env ∧ fnv1a8 env = fnv1a32 env % 2 ^ 8) := by
  have hA := Atoi_decimalInteger env
  refine ⟨?_, ?_⟩
  · intro v hv h0 h255
    rw [hv] at hA
    have hr : -(2 : Int) ^ 63 ≤ v ∧ v < (2 : Int) ^ 63 := by norm_num; omega
    simp only [hr, and_self, if_true] at hA
    have hne := Atoi_ne_nil env v hA
    simp only [InitNodeID, hne, if_false, isNumeric, hA, Option.isSome_some, if_true]
    have hc : v ≥ 0 ∧ v ≤ 255 := ⟨h0, h255⟩
    simp only [hc, and_self, if_true]
    omega
  · intro hne hv
    refine ⟨?_, fnv1a8_fnv1a32 env⟩
    unfold InitNodeID
    simp only [hne, if_false]
    cases h : Atoi env with
    | none => simp [isNumeric, h]
    | some w =>
      have hd : decimalInteger env = some w := by
        rw [h] at hA
        cases hdi : decimalInteger env with
        | none => rw [hdi] at hA; simp at hA
        | some u =>
          rw [hdi] at hA
          simp only at hA
          split_ifs at hA
          · exact congrArg some (Option.some.inj hA).symm
      have hc : ¬ (w ≥ 0 ∧ w ≤ 255) := hv w hd
      simp only [isNumeric, h, Option.isSome_some, if_true]
      simp only [hc, if_false]

set_option maxRecDepth 100000 in
theorem node_override_witness :
    (InitNodeID (lit "123") 9 : Int) = 123
      ∧ (InitNodeID (lit "256") 9 = fnv1a8 (lit "256")
          ∧ fnv1a8 (lit "256") = fnv1a32 (lit "256") % 2 ^ 8)
      ∧ (InitNodeID (lit "node-a") 9 = fnv1a8 (lit "node-a")
          ∧ fnv1a8 (lit "node-a") = fnv1a32 (lit "node-a") % 2 ^ 8) :=
  ⟨(node_override (lit "123") 9).1 123 (by decide) (by decide) (by decide),
    (node_override (lit "256") 9).2 (by decide)
      (fun v hv => by
        have h : decimalInteger (lit "256") = some 256 := by decide
        rw [h] at hv
        have hv' : v = 256 := (Option.some.inj hv).symm
        subst hv'
        decide),
    (node_override (lit "node-a") 9).2 (by decide)
      (fun v hv => by
        have h : decimalInteger (lit "node-a") = none := by decide
        rw [h] at hv
        exact Option.noConfusion hv)⟩

end Fid
